import Mathlib

/-!
# Verification of the cuproof range-proof engine (src_256 variant)

A shallow embedding in Lean 4 of the rust sources of the CaoKiet251/RangeProof
repository, together with theorems settling the specified properties.

Conventions of the embedding:
* `BigInt` is modelled as `Int`; `u64`/`usize` values as `Nat`.
* The rust remainder operator `%` on `BigInt` (sign of the dividend) is
  `Int.tmod`; `BigInt::modpow` on non-negative operands and positive modulus
  agrees with `Int.emod`, written `%` on `Int` below.
* Randomness is modelled by an explicit supply `rand : Nat → Nat`; call site
  number `i` of `random_bigint(256)` reads `rand i % 2 ^ 256`, which realises
  exactly the values the rust generator can produce (`gen_bigint(256).abs()`).
* The external hash crates are modelled by executable implementations of
  Keccak-256 (the `sha3::Keccak256` used by `src_256`) and SHA-256 (the
  `sha2::Sha256` used by `src`), validated below against published digests.
* Rust `String` values are modelled as `List Char`; a text file is the list of
  its lines, which is what `write_lines`/`read_lines` produce and consume.
-/

set_option maxRecDepth 10000

/-! ## Keccak-256 (model of the `sha3::Keccak256` dependency) -/

/-- 64-bit word modulus. -/
def w64 : Nat := 2 ^ 64

/-- Rotate a 64-bit word left by `k % 64` bits. -/
def rotl64 (x k : Nat) : Nat :=
  ((x <<< (k % 64)) ||| (x >>> (64 - k % 64))) % w64

/-- Keccak-f[1600] round constants. -/
def keccakRC : List Nat :=
  [0x0000000000000001, 0x0000000000008082, 0x800000000000808a, 0x8000000080008000,
   0x000000000000808b, 0x0000000080000001, 0x8000000080008081, 0x8000000000008009,
   0x000000000000008a, 0x0000000000000088, 0x0000000080008009, 0x000000008000000a,
   0x000000008000808b, 0x800000000000008b, 0x8000000000008089, 0x8000000000008003,
   0x8000000000008002, 0x8000000000000080, 0x000000000000800a, 0x800000008000000a,
   0x8000000080008081, 0x8000000000008080, 0x0000000080000001, 0x8000000080008008]

/-- One Keccak-f[1600] round on a 25-lane state, lane (x,y) at index `x + 5*y`,
with the theta, rho, pi, chi and iota steps written out lane by lane (the
rotation offsets and the pi source lanes are the standard tables, inlined).
The state always has exactly 25 lanes; other lengths return unchanged. -/
def keccakRound (rc : Nat) (s : List Nat) : List Nat :=
  match s with
  | [s0, s1, s2, s3, s4, s5, s6, s7, s8, s9, s10, s11, s12, s13, s14, s15, s16, s17, s18, s19, s20, s21, s22, s23, s24] =>
    let c0 := s0 ^^^ s5 ^^^ s10 ^^^ s15 ^^^ s20
    let c1 := s1 ^^^ s6 ^^^ s11 ^^^ s16 ^^^ s21
    let c2 := s2 ^^^ s7 ^^^ s12 ^^^ s17 ^^^ s22
    let c3 := s3 ^^^ s8 ^^^ s13 ^^^ s18 ^^^ s23
    let c4 := s4 ^^^ s9 ^^^ s14 ^^^ s19 ^^^ s24
    let d0 := c4 ^^^ rotl64 c1 1
    let d1 := c0 ^^^ rotl64 c2 1
    let d2 := c1 ^^^ rotl64 c3 1
    let d3 := c2 ^^^ rotl64 c4 1
    let d4 := c3 ^^^ rotl64 c0 1
    let a0 := s0 ^^^ d0
    let a1 := s1 ^^^ d1
    let a2 := s2 ^^^ d2
    let a3 := s3 ^^^ d3
    let a4 := s4 ^^^ d4
    let a5 := s5 ^^^ d0
    let a6 := s6 ^^^ d1
    let a7 := s7 ^^^ d2
    let a8 := s8 ^^^ d3
    let a9 := s9 ^^^ d4
    let a10 := s10 ^^^ d0
    let a11 := s11 ^^^ d1
    let a12 := s12 ^^^ d2
    let a13 := s13 ^^^ d3
    let a14 := s14 ^^^ d4
    let a15 := s15 ^^^ d0
    let a16 := s16 ^^^ d1
    let a17 := s17 ^^^ d2
    let a18 := s18 ^^^ d3
    let a19 := s19 ^^^ d4
    let a20 := s20 ^^^ d0
    let a21 := s21 ^^^ d1
    let a22 := s22 ^^^ d2
    let a23 := s23 ^^^ d3
    let a24 := s24 ^^^ d4
    let b0 := a0
    let b1 := rotl64 a6 44
    let b2 := rotl64 a12 43
    let b3 := rotl64 a18 21
    let b4 := rotl64 a24 14
    let b5 := rotl64 a3 28
    let b6 := rotl64 a9 20
    let b7 := rotl64 a10 3
    let b8 := rotl64 a16 45
    let b9 := rotl64 a22 61
    let b10 := rotl64 a1 1
    let b11 := rotl64 a7 6
    let b12 := rotl64 a13 25
    let b13 := rotl64 a19 8
    let b14 := rotl64 a20 18
    let b15 := rotl64 a4 27
    let b16 := rotl64 a5 36
    let b17 := rotl64 a11 10
    let b18 := rotl64 a17 15
    let b19 := rotl64 a23 56
    let b20 := rotl64 a2 62
    let b21 := rotl64 a8 55
    let b22 := rotl64 a14 39
    let b23 := rotl64 a15 41
    let b24 := rotl64 a21 2
    [(b0 ^^^ ((b1 ^^^ (w64 - 1)) &&& b2)) ^^^ rc,
     b1 ^^^ ((b2 ^^^ (w64 - 1)) &&& b3),
     b2 ^^^ ((b3 ^^^ (w64 - 1)) &&& b4),
     b3 ^^^ ((b4 ^^^ (w64 - 1)) &&& b0),
     b4 ^^^ ((b0 ^^^ (w64 - 1)) &&& b1),
     b5 ^^^ ((b6 ^^^ (w64 - 1)) &&& b7),
     b6 ^^^ ((b7 ^^^ (w64 - 1)) &&& b8),
     b7 ^^^ ((b8 ^^^ (w64 - 1)) &&& b9),
     b8 ^^^ ((b9 ^^^ (w64 - 1)) &&& b5),
     b9 ^^^ ((b5 ^^^ (w64 - 1)) &&& b6),
     b10 ^^^ ((b11 ^^^ (w64 - 1)) &&& b12),
     b11 ^^^ ((b12 ^^^ (w64 - 1)) &&& b13),
     b12 ^^^ ((b13 ^^^ (w64 - 1)) &&& b14),
     b13 ^^^ ((b14 ^^^ (w64 - 1)) &&& b10),
     b14 ^^^ ((b10 ^^^ (w64 - 1)) &&& b11),
     b15 ^^^ ((b16 ^^^ (w64 - 1)) &&& b17),
     b16 ^^^ ((b17 ^^^ (w64 - 1)) &&& b18),
     b17 ^^^ ((b18 ^^^ (w64 - 1)) &&& b19),
     b18 ^^^ ((b19 ^^^ (w64 - 1)) &&& b15),
     b19 ^^^ ((b15 ^^^ (w64 - 1)) &&& b16),
     b20 ^^^ ((b21 ^^^ (w64 - 1)) &&& b22),
     b21 ^^^ ((b22 ^^^ (w64 - 1)) &&& b23),
     b22 ^^^ ((b23 ^^^ (w64 - 1)) &&& b24),
     b23 ^^^ ((b24 ^^^ (w64 - 1)) &&& b20),
     b24 ^^^ ((b20 ^^^ (w64 - 1)) &&& b21)]
  | _ => s

/-- The Keccak-f[1600] permutation: 24 rounds. -/
def keccakF (s : List Nat) : List Nat :=
  keccakRC.foldl (fun st rc => keccakRound rc st) s

/-- Little-endian load of up to 8 bytes into a 64-bit lane. -/
def laneOfBytes (bs : List Nat) : Nat :=
  bs.foldr (fun b acc => acc <<< 8 ||| b % 256) 0

/-- Split a list into chunks of length `k`, structurally recursing on fuel. -/
def chunksAux (k : Nat) : Nat → List Nat → List (List Nat)
  | 0, _ => []
  | _, [] => []
  | fuel + 1, l => l.take k :: chunksAux k fuel (l.drop k)

/-- Split a list into chunks of length `k > 0`. -/
def chunks (k : Nat) (l : List Nat) : List (List Nat) := chunksAux k l.length l

/-- Keccak pad10*1 with domain byte 0x01 (legacy Keccak, not SHA-3) to rate 136. -/
def keccakPad (msg : List Nat) : List Nat :=
  let padlen := 136 - msg.length % 136
  if padlen == 1 then msg ++ [0x81]
  else msg ++ [0x01] ++ List.replicate (padlen - 2) 0 ++ [0x80]

/-- Absorb one 136-byte block into the state and permute. -/
def keccakAbsorbBlock (st : List Nat) (block : List Nat) : List Nat :=
  let lanes := (List.range 17).map (fun j => laneOfBytes ((block.drop (8 * j)).take 8))
  keccakF ((List.range 25).map (fun i =>
    if i < 17 then st.getD i 0 ^^^ lanes.getD i 0 else st.getD i 0))

/-- Keccak-256 digest (32 bytes) of a byte list. -/
def keccak256Bytes (msg : List Nat) : List Nat :=
  let st := (chunks 136 (keccakPad msg)).foldl keccakAbsorbBlock (List.replicate 25 0)
  (List.range 32).map (fun k => (st.getD (k / 8) 0 >>> (8 * (k % 8))) % 256)

/-- Interpret a byte list big-endian as a natural number
(`BigInt::from_bytes_be`): positional base-256 accumulation. -/
def natOfBytesBE (bs : List Nat) : Nat :=
  bs.foldl (fun acc b => acc * 256 + b % 256) 0

/-- Keccak-256 digest of a byte list, as a non-negative integer (big-endian),
matching `BigInt::from_bytes_be(Sign::Plus, &hash)`. -/
def keccak256 (msg : List Nat) : Nat := natOfBytesBE (keccak256Bytes msg)

/-! ## SHA-256 (model of the `sha2::Sha256` dependency) -/

/-- 32-bit word modulus. -/
def w32 : Nat := 2 ^ 32

/-- Rotate a 32-bit word right by `k % 32` bits. -/
def rotr32 (x k : Nat) : Nat :=
  ((x >>> (k % 32)) ||| (x <<< (32 - k % 32))) % w32

/-- SHA-256 round constants: the standard table (fractional parts of the cube
roots of the first 64 primes), written in decimal; the `sha256_abc_vec` and
`sha256_empty_vec` test vectors below check the whole pipeline. -/
def sha256K : List Nat :=
  [1116352408, 1899447441, 3049323471, 3921009573, 961987163, 1508970993,
   2453635748, 2870763221, 3624381080, 310598401, 607225278, 1426881987,
   1925078388, 2162078206, 2614888103, 3248222580, 3835390401, 4022224774,
   264347078, 604807628, 770255983, 1249150122, 1555081692, 1996064986,
   2554220882, 2821834349, 2952996808, 3210313671, 3336571891, 3584528711,
   113926993, 338241895, 666307205, 773529912, 1294757372, 1396182291,
   1695183700, 1986661051, 2177026350, 2456956037, 2730485921, 2820302411,
   3259730800, 3345764771, 3516065817, 3600352804, 4094571909, 275423344,
   430227734, 506948616, 659060556, 883997877, 958139571, 1322822218,
   1537002063, 1747873779, 1955562222, 2024104815, 2227730452, 2361852424,
   2428436474, 2756734187, 3204031479, 3329325298]

/-- SHA-256 initial hash state. -/
def sha256H0 : List Nat :=
  [0x6a09e667, 0xbb67ae85, 0x3c6ef372, 0xa54ff53a,
   0x510e527f, 0x9b05688c, 0x1f83d9ab, 0x5be0cd19]

/-- Big-endian load of 4 bytes into a 32-bit word. -/
def word32OfBytes (bs : List Nat) : Nat :=
  bs.foldl (fun acc b => acc <<< 8 ||| b % 256) 0

/-- SHA-256 message padding: 0x80, zeros, 64-bit big-endian bit length. -/
def sha256Pad (msg : List Nat) : List Nat :=
  let zeros := (119 - msg.length % 64) % 64
  let bitlen := 8 * msg.length
  msg ++ [0x80] ++ List.replicate zeros 0 ++
    (List.range 8).map (fun k => (bitlen >>> (8 * (7 - k))) % 256)

/-- SHA-256 message schedule: 64 words from a 64-byte block. -/
def sha256Schedule (block : List Nat) : List Nat :=
  (List.range 64).foldl (fun w i =>
    if i < 16 then w ++ [word32OfBytes ((block.drop (4 * i)).take 4)]
    else
      let s0 := rotr32 (w.getD (i - 15) 0) 7 ^^^ rotr32 (w.getD (i - 15) 0) 18 ^^^
        (w.getD (i - 15) 0 >>> 3)
      let s1 := rotr32 (w.getD (i - 2) 0) 17 ^^^ rotr32 (w.getD (i - 2) 0) 19 ^^^
        (w.getD (i - 2) 0 >>> 10)
      w ++ [(w.getD (i - 16) 0 + s0 + w.getD (i - 7) 0 + s1) % w32]) []

/-- SHA-256 compression of one 64-byte block into the 8-word state. -/
def sha256Compress (st : List Nat) (block : List Nat) : List Nat :=
  let w := sha256Schedule block
  let fin := (List.range 64).foldl (fun v i =>
    let a := v.getD 0 0
    let b := v.getD 1 0
    let c := v.getD 2 0
    let d := v.getD 3 0
    let e := v.getD 4 0
    let f := v.getD 5 0
    let g := v.getD 6 0
    let h := v.getD 7 0
    let s1 := rotr32 e 6 ^^^ rotr32 e 11 ^^^ rotr32 e 25
    let ch := (e &&& f) ^^^ ((e ^^^ (w32 - 1)) &&& g)
    let t1 := (h + s1 + ch + sha256K.getD i 0 + w.getD i 0) % w32
    let s0 := rotr32 a 2 ^^^ rotr32 a 13 ^^^ rotr32 a 22
    let mj := (a &&& b) ^^^ (a &&& c) ^^^ (b &&& c)
    let t2 := (s0 + mj) % w32
    [(t1 + t2) % w32, a, b, c, (d + t1) % w32, e, f, g]) st
  (List.range 8).map (fun i => (st.getD i 0 + fin.getD i 0) % w32)

/-- SHA-256 digest (32 bytes) of a byte list. -/
def sha256Bytes (msg : List Nat) : List Nat :=
  let st := (chunksAux 64 (sha256Pad msg).length (sha256Pad msg)).foldl sha256Compress sha256H0
  st.foldr (fun wrd acc => (List.range 4).map (fun k => (wrd >>> (8 * (3 - k))) % 256) ++ acc) []

/-- SHA-256 digest of a byte list as a non-negative integer (big-endian). -/
def sha256 (msg : List Nat) : Nat := natOfBytesBE (sha256Bytes msg)

-- dev checks (removed in the final file)

/-! ## Byte and string encodings of `num_bigint::BigInt` values -/

/-- Minimal big-endian byte expansion of a positive natural (fuel recursion). -/
def natBytesBEAux : Nat → Nat → List Nat
  | 0, _ => []
  | fuel + 1, n => if n = 0 then [] else natBytesBEAux fuel (n / 256) ++ [n % 256]

/-- `BigInt::to_bytes_be` magnitude bytes: minimal big-endian, `0` gives `[0]`. -/
def to_bytes_be (n : Nat) : List Nat :=
  if n = 0 then [0] else natBytesBEAux n n

/-- Decimal digit characters of a positive natural (fuel recursion). -/
def natDecCharsAux : Nat → Nat → List Char
  | 0, _ => []
  | fuel + 1, n => if n = 0 then [] else natDecCharsAux fuel (n / 10) ++ [Char.ofNat (48 + n % 10)]

/-- Decimal digit characters of a natural, `0` gives "0". -/
def natDecChars (n : Nat) : List Char :=
  if n = 0 then ['0'] else natDecCharsAux n n

/-- `BigInt::to_str_radix(10)`: decimal digits, with a leading minus sign when
negative. -/
def to_str_radix10 (x : Int) : List Char :=
  if x < 0 then '-' :: natDecChars x.natAbs else natDecChars x.natAbs

/-! ## Fiat-Shamir (src_256/fiat_shamir.rs and src/fiat_shamir.rs) -/

/-- The 32-byte big-endian buffer `src_256/fiat_shamir.rs` feeds to Keccak for
one input: magnitude bytes left-padded to 32 bytes, each byte complemented when
the input is negative. The rust code PANICS when the magnitude exceeds 32
bytes: `start = 32usize.saturating_sub(bytes.len())` saturates to 0 and
`padded[0..].copy_from_slice(&bytes)` aborts on the length mismatch. This
total model keeps the full magnitude in that case; the panic domain is made
explicit by `fs_pad32_panics` and the `..._panics` predicates below, and every
theorem about hash values only applies this function below `2^256`. -/
def fs_pad32 (x : Int) : List Nat :=
  let bytes := to_bytes_be x.natAbs
  let padded := List.replicate (32 - bytes.length) 0 ++ bytes
  if x < 0 then padded.map (fun b => 255 - b) else padded

/-- The byte stream hashed by the Keccak-256 variant of `fiat_shamir`. -/
def fiat_shamir_input (inputs : List Int) : List Nat :=
  (inputs.map fs_pad32).flatten

/-- `fiat_shamir` of `src_256/fiat_shamir.rs`: Keccak-256 of the concatenated
32-byte encodings, read back as a non-negative big-endian integer. -/
def fiat_shamir (inputs : List Int) : Int :=
  ((keccak256 (fiat_shamir_input inputs) : Nat) : Int)

/-- The byte stream hashed by the SHA-256 variant of `fiat_shamir` in
`src/fiat_shamir.rs`: the ASCII decimal representation of each input,
concatenated in order with no separator. -/
def fiat_shamir_sha_input (inputs : List Int) : List Nat :=
  (inputs.map (fun i => (to_str_radix10 i).map Char.toNat)).flatten

/-- `fiat_shamir` of `src/fiat_shamir.rs`: SHA-256 of the concatenated decimal
strings, read back as a non-negative big-endian integer. -/
def fiat_shamir_sha (inputs : List Int) : Int :=
  ((sha256 (fiat_shamir_sha_input inputs) : Nat) : Int)

/-! ## Commitments (src_256/commitment.rs) -/

/-- Square-and-multiply core of `BigInt::modpow`: `powModAux b m fuel e` is
`b ^ e % m` whenever `e ≤ fuel` (`powMod_eq` below).  Fuel-structural so that
it kernel-reduces in `log2 e` steps, like the bigint exponentiation it
models. -/
def powModAux (b m : Nat) : Nat → Nat → Nat
  | 0, _ => 1 % m
  | fuel + 1, e =>
    if e = 0 then 1 % m
    else
      powModAux b m fuel (e / 2) * powModAux b m fuel (e / 2) % m *
        (if e % 2 = 1 then b % m else 1) % m

/-- `b ^ e % m` by binary exponentiation (with `% 0` the identity, as in
`Nat.mod`). -/
def powMod (b e m : Nat) : Nat := powModAux b m e e

/-- `mod_exp` of `src_256/commitment.rs`: takes the absolute value of both the
base and the exponent, then `BigInt::modpow`.  For non-negative operands and a
positive modulus, `modpow` agrees with `Int.emod` of the power, written `%`;
`mod_exp_eq` below states the result as the plain power `%` the modulus. -/
def mod_exp (base exp modulus : Int) : Int :=
  let base_pos := if base < 0 then -base else base
  let exp_pos := if exp < 0 then -exp else exp
  ((powMod base_pos.toNat exp_pos.toNat modulus.natAbs : Nat) : Int)

/-- `pedersen_commit`: `mod_exp(g, m, n) * mod_exp(h, r, n) % n`. Both factors
are non-negative, so the rust `%` (sign of the dividend) agrees with `%` here. -/
def pedersen_commit (g h m r n : Int) : Int :=
  mod_exp g m n * mod_exp h r n % n

/-- The convention the spec states for a negative exponent: negate the base
and raise it to the positive exponent, reduced by the rust `%` (`Int.tmod`).
Written from the words of the spec, to be compared with `mod_exp` above. -/
def mod_exp_spec_neg (g : Int) (m : Nat) (n : Int) : Int :=
  Int.tmod ((-g) ^ m) n

/-! ## Utility functions (src_256/util.rs) -/

/-- `random_bigint(bits)` draws `gen_bigint(bits).abs()`, a value in
`[0, 2^bits)`.  The supply `rand` gives the draw at each call-site index, so
quantifying over `rand` quantifies over every possible random outcome. -/
def random_bigint (rand : Nat → Nat) (i : Nat) (bits : Nat) : Int :=
  ((rand i % 2 ^ bits : Nat) : Int)

/-- `inner_product`: sum of pairwise products (zip stops at the shorter list). -/
def inner_product (a b : List Int) : Int :=
  ((a.zip b).map (fun p => p.1 * p.2)).sum

/-! ## Integer square root

`Nat.sqrt` is not kernel-reducible in this toolchain, so the embeddings below
use an executable bit-by-bit floor square root.  `isqrt_correct` shows it is
the floor square root; it models both the `(x as f64).sqrt().floor()` of
`find_3_squares`/`find_4_squares` (exact for `x < 2^53`) and `BigInt::sqrt`. -/

/-- Fuel-structural binary logarithm (`log2Aux n n` computes `Nat.log2 n`). -/
def log2Aux : Nat → Nat → Nat
  | 0, _ => 0
  | fuel + 1, n => if n < 2 then 0 else log2Aux fuel (n / 2) + 1

/-- Binary logarithm (0 at 0), kernel-reducible. -/
def log2f (n : Nat) : Nat := log2Aux n n

/-- Set bits of the root from high to low, keeping the square below `n`. -/
def isqrtBits (n : Nat) : Nat → Nat → Nat
  | 0, r => r
  | k + 1, r =>
    if (r + 2 ^ k) * (r + 2 ^ k) ≤ n then isqrtBits n k (r + 2 ^ k)
    else isqrtBits n k r

/-- Floor square root. -/
def isqrt (n : Nat) : Nat := isqrtBits n (log2f n / 2 + 1) 0

/-- Floor square root of a `BigInt`; negative inputs make the rust
`BigInt::sqrt` panic, here they give 0. -/
def int_sqrt (n : Int) : Int := ((isqrt n.toNat : Nat) : Int)

/-! ## Square decomposition (src_256/lagrange.rs) -/

/-- Inner `b` loop of the exhaustive phase of `find_3_squares`: for fixed `a`,
scan `b = b0, b0+1, ...` while `b ≤ a`, breaking when `a*a + b*b > n`.  The
floating-point `floor(sqrt(rem))` of the source is modelled by the exact
floor square root `isqrt`, which agrees with it for `rem < 2^53` and in
particular on the whole phase-1 domain `n ≤ 1000000`. -/
def f3s_loopB (n a : Nat) : Nat → Nat → Option (Nat × Nat × Nat)
  | _, 0 => none
  | b, fuel + 1 =>
    if b > a then none
    else
      let ab := a * a + b * b
      if ab > n then none
      else
        let c := isqrt (n - ab)
        if a * a + b * b + c * c == n then some (a, b, c)
        else f3s_loopB n a (b + 1) fuel

/-- Outer `a` loop of the exhaustive phase of `find_3_squares`. -/
def f3s_loopA (n : Nat) : Nat → Nat → Option (Nat × Nat × Nat)
  | _, 0 => none
  | a, fuel + 1 =>
    if a > n then none
    else
      match f3s_loopB n a 0 (a + 2) with
      | some r => some r
      | none => f3s_loopA n (a + 1) fuel

/-- The power-of-two heuristic loop of `find_3_squares`: `k = 1, ..., 32`,
testing `(2^k)^2 + (2^(k-1))^2 + 1` against `n`. -/
def f3s_loopK (n : Int) : Nat → Nat → Option (Int × Int × Int)
  | _, 0 => none
  | k, fuel + 1 =>
    if k > 32 then none
    else
      if ((2 : Int) ^ k * 2 ^ k + 2 ^ (k - 1) * 2 ^ (k - 1) + 1) == n then
        some ((2 : Int) ^ k, 2 ^ (k - 1), 1)
      else if ((2 : Int) ^ k * 2 ^ k + 2 ^ (k - 1) * 2 ^ (k - 1) + 1) > n then none
      else f3s_loopK n (k + 1) fuel

/-- `find_3_squares` of `src_256/lagrange.rs`.  `n.to_u64()` is modelled by the
range test against `2^64`; all integer divisions occur on non-negative values,
where the rust truncated division agrees with `/` here.  (For negative `n` the
rust `BigInt::sqrt` would panic; the model returns the final fallback instead,
and no theorem below evaluates it there.) -/
def find_3_squares (n : Int) : List Int :=
  match (if 0 ≤ n ∧ n < (2 : Int) ^ 64 then
      (if n.toNat ≤ 1000000 then f3s_loopA n.toNat 0 (n.toNat + 2) else none)
    else none) with
  | some (a, b, c) => [(a : Int), (b : Int), (c : Int)]
  | none =>
    match f3s_loopK n 1 33 with
    | some (a, b, c) => [a, b, c]
    | none =>
      if int_sqrt n / 2 * (int_sqrt n / 2) + int_sqrt n / 4 * (int_sqrt n / 4) + 1 * 1 ≤ n
      then [int_sqrt n / 2, int_sqrt n / 4, 1]
      else [1, 1, 1]

/-! ## Proof objects (src_256/range_proof.rs) -/

structure IPPProof where
  L : List Int
  R : List Int
  a : Int
  b : Int
  deriving DecidableEq

structure Cuproof where
  A : Int
  S : Int
  T1 : Int
  T2 : Int
  tau_x : Int
  mu : Int
  t_hat : Int
  C : Int
  C_v1 : Int
  C_v2 : Int
  t0 : Int
  t1 : Int
  t2 : Int
  tau1 : Int
  tau2 : Int
  ipp_proof : IPPProof
  deriving DecidableEq

/-- `inner_product_argument_recursive` of `src_256/range_proof.rs`, recursing
structurally on fuel (the callers pass the vector length, which dominates the
actual recursion depth `log2(length)`).  `idx` numbers the two `random_bigint`
draws of each level.  The pushes after the recursive call put the current
level L/R pair after those of the deeper levels, exactly as in the source. -/
def inner_product_argument_recursive (g h n : Int) (rand : Nat → Nat) :
    Nat → Nat → List Int → List Int → Int × Int × List Int × List Int
  | 0, _, l_vec, r_vec => (l_vec.headD 0, r_vec.headD 0, [], [])
  | fuel + 1, idx, l_vec, r_vec =>
    if l_vec.length == 1 then (l_vec.headD 0, r_vec.headD 0, [], [])
    else
      let mid := l_vec.length / 2
      let l_left := l_vec.take mid
      let l_right := l_vec.drop mid
      let r_left := r_vec.take mid
      let r_right := r_vec.drop mid
      let c_L := inner_product l_left r_right
      let c_R := inner_product l_right r_left
      let r_L := random_bigint rand idx 256
      let r_R := random_bigint rand (idx + 1) 256
      let L := pedersen_commit g h c_L r_L n
      let R := pedersen_commit g h c_R r_R n
      let y := Int.tmod (fiat_shamir [L, R]) n
      let l_new := (l_left.zip l_right).map (fun p => p.1 + y * p.2)
      let r_new := (r_left.zip r_right).map (fun p => p.2 + y * p.1)
      let res := inner_product_argument_recursive g h n rand fuel (idx + 2) l_new r_new
      (res.1, res.2.1, res.2.2.1 ++ [L], res.2.2.2 ++ [R])

/-! ## The prover (src_256/range_proof.rs, `cuproof_prove_with_dimension`)

The locals of the rust function are factored into one definition each, named
`prv_<local>`, all over the full argument tuple; `cuproof_prove_with_dimension`
assembles the record from them.  Random draw indices follow the call order of
`random_bigint` in the source: the three `commit_value` blindings (0,1,2),
`alpha` (3), `rho` (4), `sL` (5..5+dim), `sR` (5+dim..5+2dim), `tau1`
(5+2dim), `tau2` (6+2dim), then two draws per IPP level from 7+2dim. -/

def prv_v1 (v a : Int) : Int := 4 * v - 4 * a + 1

def prv_v2 (v b : Int) : Int := 4 * b - 4 * v + 1

def prv_d_base (v a b : Int) : List Int :=
  find_3_squares (prv_v1 v a) ++ find_3_squares (prv_v2 v b)

/-- `d`: the base vector tiled to length `dim` (`d_base[i % d_base.len()]`). -/
def prv_d (v a b : Int) (dim : Nat) : List Int :=
  (List.range dim).map (fun i => (prv_d_base v a b).getD (i % (prv_d_base v a b).length) 0)

def prv_C (v r a b g h n : Int) (dim : Nat) (rand : Nat → Nat) : Int :=
  pedersen_commit g h v (random_bigint rand 0 256) n

def prv_C_v1 (v r a b g h n : Int) (dim : Nat) (rand : Nat → Nat) : Int :=
  pedersen_commit g h (prv_v1 v a) (random_bigint rand 1 256) n

def prv_C_v2 (v r a b g h n : Int) (dim : Nat) (rand : Nat → Nat) : Int :=
  pedersen_commit g h (prv_v2 v b) (random_bigint rand 2 256) n

def prv_alpha (rand : Nat → Nat) : Int := random_bigint rand 3 256

def prv_rho (rand : Nat → Nat) : Int := random_bigint rand 4 256

def prv_sL (dim : Nat) (rand : Nat → Nat) : List Int :=
  (List.range dim).map (fun i => random_bigint rand (5 + i) 256)

def prv_sR (dim : Nat) (rand : Nat → Nat) : List Int :=
  (List.range dim).map (fun i => random_bigint rand (5 + dim + i) 256)

def prv_A (v r a b g h n : Int) (dim : Nat) (rand : Nat → Nat) : Int :=
  pedersen_commit g h (prv_d v a b dim).sum (prv_alpha rand) n

def prv_S (v r a b g h n : Int) (dim : Nat) (rand : Nat → Nat) : Int :=
  pedersen_commit g h ((prv_sL dim rand).sum + (prv_sR dim rand).sum) (prv_rho rand) n

def prv_y (v r a b g h n : Int) (dim : Nat) (rand : Nat → Nat) : Int :=
  Int.tmod (fiat_shamir [prv_A v r a b g h n dim rand, prv_S v r a b g h n dim rand,
    prv_C v r a b g h n dim rand, prv_C_v1 v r a b g h n dim rand,
    prv_C_v2 v r a b g h n dim rand]) n

def prv_z (v r a b g h n : Int) (dim : Nat) (rand : Nat → Nat) : Int :=
  Int.tmod (fiat_shamir [prv_y v r a b g h n dim rand]) n

def prv_l0 (v r a b g h n : Int) (dim : Nat) (rand : Nat → Nat) : List Int :=
  (prv_d v a b dim).map (fun di =>
    prv_z v r a b g h n dim rand * di + prv_y v r a b g h n dim rand)

def prv_r0 (v r a b g h n : Int) (dim : Nat) (rand : Nat → Nat) : List Int :=
  (prv_d v a b dim).map (fun di =>
    prv_z v r a b g h n dim rand * di + prv_y v r a b g h n dim rand)

def prv_t0 (v r a b g h n : Int) (dim : Nat) (rand : Nat → Nat) : Int :=
  inner_product (prv_l0 v r a b g h n dim rand) (prv_r0 v r a b g h n dim rand)

def prv_t1 (v r a b g h n : Int) (dim : Nat) (rand : Nat → Nat) : Int :=
  (((prv_l0 v r a b g h n dim rand).zip (prv_sR dim rand)).map (fun p => p.1 * p.2)).sum +
    (((prv_r0 v r a b g h n dim rand).zip (prv_sL dim rand)).map (fun p => p.1 * p.2)).sum

def prv_t2 (v r a b g h n : Int) (dim : Nat) (rand : Nat → Nat) : Int :=
  inner_product (prv_sL dim rand) (prv_sR dim rand)

def prv_tau1 (dim : Nat) (rand : Nat → Nat) : Int := random_bigint rand (5 + 2 * dim) 256

def prv_tau2 (dim : Nat) (rand : Nat → Nat) : Int := random_bigint rand (6 + 2 * dim) 256

def prv_T1 (v r a b g h n : Int) (dim : Nat) (rand : Nat → Nat) : Int :=
  pedersen_commit g h (prv_t1 v r a b g h n dim rand) (prv_tau1 dim rand) n

def prv_T2 (v r a b g h n : Int) (dim : Nat) (rand : Nat → Nat) : Int :=
  pedersen_commit g h (prv_t2 v r a b g h n dim rand) (prv_tau2 dim rand) n

def prv_x (v r a b g h n : Int) (dim : Nat) (rand : Nat → Nat) : Int :=
  Int.tmod (fiat_shamir [prv_T1 v r a b g h n dim rand, prv_T2 v r a b g h n dim rand]) n

def prv_t_hat (v r a b g h n : Int) (dim : Nat) (rand : Nat → Nat) : Int :=
  prv_t0 v r a b g h n dim rand +
    prv_t1 v r a b g h n dim rand * prv_x v r a b g h n dim rand +
    prv_t2 v r a b g h n dim rand * prv_x v r a b g h n dim rand * prv_x v r a b g h n dim rand

def prv_mu (v r a b g h n : Int) (dim : Nat) (rand : Nat → Nat) : Int :=
  prv_alpha rand + prv_rho rand * prv_x v r a b g h n dim rand

def prv_tau_x (v r a b g h n : Int) (dim : Nat) (rand : Nat → Nat) : Int :=
  prv_tau2 dim rand * prv_x v r a b g h n dim rand * prv_x v r a b g h n dim rand +
    prv_tau1 dim rand * prv_x v r a b g h n dim rand

def prv_l_vec (v r a b g h n : Int) (dim : Nat) (rand : Nat → Nat) : List Int :=
  ((prv_l0 v r a b g h n dim rand).zip (prv_sL dim rand)).map
    (fun p => p.1 + p.2 * prv_x v r a b g h n dim rand)

def prv_r_vec (v r a b g h n : Int) (dim : Nat) (rand : Nat → Nat) : List Int :=
  ((prv_r0 v r a b g h n dim rand).zip (prv_sR dim rand)).map
    (fun p => p.1 + p.2 * prv_x v r a b g h n dim rand)

def prv_ipp (v r a b g h n : Int) (dim : Nat) (rand : Nat → Nat) :
    Int × Int × List Int × List Int :=
  inner_product_argument_recursive g h n rand (prv_l_vec v r a b g h n dim rand).length
    (7 + 2 * dim) (prv_l_vec v r a b g h n dim rand) (prv_r_vec v r a b g h n dim rand)

/-- `cuproof_prove_with_dimension`: assembles the proof from the values above.
The witness blinding argument `r` is accepted but unused, exactly as in the
source (`commit_value` draws a fresh blinding for `C`). -/
def cuproof_prove_with_dimension (v r a b g h n : Int) (dim : Nat) (rand : Nat → Nat) : Cuproof :=
  { A := prv_A v r a b g h n dim rand
    S := prv_S v r a b g h n dim rand
    T1 := prv_T1 v r a b g h n dim rand
    T2 := prv_T2 v r a b g h n dim rand
    tau_x := prv_tau_x v r a b g h n dim rand
    mu := prv_mu v r a b g h n dim rand
    t_hat := prv_t_hat v r a b g h n dim rand
    C := prv_C v r a b g h n dim rand
    C_v1 := prv_C_v1 v r a b g h n dim rand
    C_v2 := prv_C_v2 v r a b g h n dim rand
    t0 := prv_t0 v r a b g h n dim rand
    t1 := prv_t1 v r a b g h n dim rand
    t2 := prv_t2 v r a b g h n dim rand
    tau1 := prv_tau1 dim rand
    tau2 := prv_tau2 dim rand
    ipp_proof :=
      { L := (prv_ipp v r a b g h n dim rand).2.2.1
        R := (prv_ipp v r a b g h n dim rand).2.2.2
        a := (prv_ipp v r a b g h n dim rand).1
        b := (prv_ipp v r a b g h n dim rand).2.1 } }

/-- `cuproof_prove`: the dimension-64 wrapper. -/
def cuproof_prove (v r a b g h n : Int) (rand : Nat → Nat) : Cuproof :=
  cuproof_prove_with_dimension v r a b g h n 64 rand

/-! ## The verifier (src_256/verify.rs) -/

/-- `cuproof_verify`.  The sequence of early `return false` guards of the
source is the conjunction below, in source order; the constant
`(64.0_f64).log2().ceil() as usize` is the literal 6. -/
def cuproof_verify (proof : Cuproof) (g h n : Int) : Bool :=
  let y := Int.tmod (fiat_shamir [proof.A, proof.S, proof.C, proof.C_v1, proof.C_v2]) n
  let z := Int.tmod (fiat_shamir [y]) n
  let x := Int.tmod (fiat_shamir [proof.T1, proof.T2]) n
  let rhs_t := proof.t0 + proof.t1 * x + proof.t2 * x * x
  !(y == 0) && !(z == 0) && !(x == 0) &&
  (pedersen_commit g h proof.t1 proof.tau1 n == proof.T1) &&
  (pedersen_commit g h proof.t2 proof.tau2 n == proof.T2) &&
  (proof.t_hat == rhs_t) &&
  (pedersen_commit g h proof.t_hat proof.tau_x n == pedersen_commit g h rhs_t proof.tau_x n) &&
  (proof.ipp_proof.L.length == proof.ipp_proof.R.length) &&
  (proof.ipp_proof.L.length == 6) &&
  !(Int.tmod proof.A n == 0) && !(Int.tmod proof.S n == 0) &&
  !(Int.tmod proof.T1 n == 0) && !(Int.tmod proof.T2 n == 0) &&
  !(Int.tmod proof.C n == 0) && !(Int.tmod proof.C_v1 n == 0) &&
  !(Int.tmod proof.C_v2 n == 0) &&
  !(proof.C == proof.C_v1) && !(proof.C == proof.C_v2) && !(proof.C_v1 == proof.C_v2)

/-- `cuproof_verify` with step 4 (the commitment comparison for `t_hat`)
removed, and nothing else changed.  This is the refinement target used to
state that step 4 never decides the verdict. -/
def cuproof_verify_no_step4 (proof : Cuproof) (g h n : Int) : Bool :=
  let y := Int.tmod (fiat_shamir [proof.A, proof.S, proof.C, proof.C_v1, proof.C_v2]) n
  let z := Int.tmod (fiat_shamir [y]) n
  let x := Int.tmod (fiat_shamir [proof.T1, proof.T2]) n
  let rhs_t := proof.t0 + proof.t1 * x + proof.t2 * x * x
  !(y == 0) && !(z == 0) && !(x == 0) &&
  (pedersen_commit g h proof.t1 proof.tau1 n == proof.T1) &&
  (pedersen_commit g h proof.t2 proof.tau2 n == proof.T2) &&
  (proof.t_hat == rhs_t) &&
  (proof.ipp_proof.L.length == proof.ipp_proof.R.length) &&
  (proof.ipp_proof.L.length == 6) &&
  !(Int.tmod proof.A n == 0) && !(Int.tmod proof.S n == 0) &&
  !(Int.tmod proof.T1 n == 0) && !(Int.tmod proof.T2 n == 0) &&
  !(Int.tmod proof.C n == 0) && !(Int.tmod proof.C_v1 n == 0) &&
  !(Int.tmod proof.C_v2 n == 0) &&
  !(proof.C == proof.C_v1) && !(proof.C == proof.C_v2) && !(proof.C_v1 == proof.C_v2)

/-- `cuproof_verify_with_range`: the underlying verifier, then the two
degenerate-bound guards, mirroring the early returns of the source. -/
def cuproof_verify_with_range (proof : Cuproof) (g h n a b : Int) : Bool :=
  if !(cuproof_verify proof g h n) then false
  else if a > b then false
  else if a == b then false
  else true

/-- The panic condition of one `fiat_shamir` buffer fill
(`src_256/fiat_shamir.rs`, lines 8-11): the big-endian magnitude takes more
than 32 bytes, so `copy_from_slice` into the 32-byte buffer aborts.  This
holds exactly for magnitudes of `2^256` and above. -/
def fs_pad32_panics (x : Int) : Bool :=
  32 < (to_bytes_be x.natAbs).length

/-- `fiat_shamir` panics when any input of the slice overflows its buffer. -/
def fiat_shamir_panics (inputs : List Int) : Bool :=
  inputs.any fs_pad32_panics

/-- The panic condition of `cuproof_verify`, following the evaluation order of
the source: the `y` hash is computed unconditionally, the `z` hash only when
the `y == 0` guard did not already return false, and the `x` hash only when
the `z == 0` guard did not.  (`% n` itself aborts when `n = 0`; theorems using
this predicate assume `n ≠ 0` separately.) -/
def cuproof_verify_panics (proof : Cuproof) (n : Int) : Bool :=
  fiat_shamir_panics [proof.A, proof.S, proof.C, proof.C_v1, proof.C_v2] ||
    (!(Int.tmod (fiat_shamir [proof.A, proof.S, proof.C, proof.C_v1, proof.C_v2]) n == 0) &&
      (fiat_shamir_panics
          [Int.tmod (fiat_shamir [proof.A, proof.S, proof.C, proof.C_v1, proof.C_v2]) n] ||
        (!(Int.tmod (fiat_shamir
              [Int.tmod (fiat_shamir [proof.A, proof.S, proof.C, proof.C_v1, proof.C_v2]) n]) n
            == 0) &&
          fiat_shamir_panics [proof.T1, proof.T2])))

/-- `cuproof_verify_with_range` evaluates `cuproof_verify proof g h n` BEFORE
its two bound guards, so it panics exactly when the underlying verifier does,
for every choice of the bounds `a`, `b`. -/
def cuproof_verify_with_range_panics (proof : Cuproof) (g h n a b : Int) : Bool :=
  cuproof_verify_panics proof n

/-! ## Setup (src_256/setup.rs)

`setup_256` is randomized: it draws two distinct 128-bit probable primes p, q,
sets n = p*q, and samples g, h from `gen_bigint_range(2, n)` until
`gcd(g,n) = 1`, `gcd(h,n) = 1` and `h ≠ g`.  The deterministic postcondition
of every run is captured by the predicate below (n = p*q of two 128-bit
factors also forces 1 < n < 2^256); probable primality of the factors is a
property of the sampling distribution, not of any single output, and no
theorem below depends on it. -/

def SetupParams (g h n : Int) : Prop :=
  1 < n ∧ 2 ≤ g ∧ g < n ∧ 2 ≤ h ∧ h < n ∧ g ≠ h ∧ Int.gcd g n = 1 ∧ Int.gcd h n = 1

instance (g h n : Int) : Decidable (SetupParams g h n) := by
  unfold SetupParams; infer_instance

/-! ## find_4_squares (src_256/lagrange.rs)

The rust function works in `u64`.  The release-mode wrapping semantics of the
subtraction `n_u - a*a - b*b - c*c` and of the additions in the final equality
test are modelled exactly (mod `2^64`); a debug build instead panics at the
first underflowing subtraction.  The run function returns, next to the result,
a flag recording whether any subtraction underflowed at a loop iteration up to
and including the returning one.  The `f64` `floor(sqrt(rem))` of the source
is modelled by `isqrt`; the two are equal whenever `rem < 2^53`, which
covers every iteration the theorems below evaluate except the two underflowed
(wrapped) iterations at input 128, where both roundings fail the subsequent
equality test, leaving the control flow identical. -/

/-- A `u64` square, wrapping. -/
def f4s_sq (x : Nat) : Nat := x * x % w64

/-- The wrapped remainder `n - s` in `u64` arithmetic. -/
def f4s_rem (n s : Nat) : Nat := (((n : Int) - (s : Int)) % ((w64 : Nat) : Int)).toNat

/-- Innermost `c` loop of `find_4_squares`. -/
def f4s_loopC (n a b : Nat) : Nat → Nat → Bool → (Option (Nat × Nat × Nat × Nat)) × Bool
  | _, 0, fl => (none, fl)
  | c, fuel + 1, fl =>
    if c > b then (none, fl)
    else
      let s := f4s_sq a + f4s_sq b + f4s_sq c
      let fl2 := fl || decide (n < s)
      let d := isqrt (f4s_rem n s)
      if (s + f4s_sq d) % w64 == n then (some (a, b, c, d), fl2)
      else f4s_loopC n a b (c + 1) fuel fl2

/-- Middle `b` loop of `find_4_squares`. -/
def f4s_loopB (n a : Nat) : Nat → Nat → Bool → (Option (Nat × Nat × Nat × Nat)) × Bool
  | _, 0, fl => (none, fl)
  | b, fuel + 1, fl =>
    if b > a then (none, fl)
    else
      match f4s_loopC n a b 0 (b + 2) fl with
      | (some res, fl2) => (some res, fl2)
      | (none, fl2) => f4s_loopB n a (b + 1) fuel fl2

/-- Outer `a` loop of `find_4_squares`. -/
def f4s_loopA (n : Nat) : Nat → Nat → Bool → (Option (Nat × Nat × Nat × Nat)) × Bool
  | _, 0, fl => (none, fl)
  | a, fuel + 1, fl =>
    if a > n then (none, fl)
    else
      match f4s_loopB n a 0 (a + 2) fl with
      | (some res, fl2) => (some res, fl2)
      | (none, fl2) => f4s_loopA n (a + 1) fuel fl2

/-- `find_4_squares`, instrumented: result (`none` marks the panic branch) and
the underflow flag.  `n.to_u64().unwrap_or(0)` is the range test below. -/
def find_4_squares_run (nBig : Int) : (Option (Nat × Nat × Nat × Nat)) × Bool :=
  let n_u := if 0 ≤ nBig ∧ nBig < (2 : Int) ^ 64 then nBig.toNat else 0
  f4s_loopA n_u 0 (n_u + 2) false

/-- `find_4_squares`: the returned quadruple as `Vec<BigInt>`; the empty list
stands for the panic branch of the source. -/
def find_4_squares (nBig : Int) : List Int :=
  match (find_4_squares_run nBig).1 with
  | some (a, b, c, d) => [(a : Int), (b : Int), (c : Int), (d : Int)]
  | none => []

/-! ## The proof codec (src_256/util.rs)

Lines of text are `List Char`; a saved file is its list of lines, which is
exactly what `write_lines` emits (newline-joined) and `read_lines` returns.
The index cursor `i` of the rust `load_proof` only ever advances by one, so it
is modelled by consuming the head of the remaining-lines list. -/

def isSpaceChar (ch : Char) : Bool :=
  ch == ' ' || ch == '\t' || ch == '\n' || ch == '\r'

/-- `str::trim` (the saved lines are ASCII, so ASCII whitespace suffices). -/
def trimChars (s : List Char) : List Char :=
  ((s.dropWhile fun ch => isSpaceChar ch).reverse.dropWhile fun ch => isSpaceChar ch).reverse

/-- Value of one hexadecimal digit character (`hex::decode` accepts both cases). -/
def hexDigitVal (ch : Char) : Option Nat :=
  if '0' ≤ ch ∧ ch ≤ '9' then some (ch.toNat - 48)
  else if 'a' ≤ ch ∧ ch ≤ 'f' then some (ch.toNat - 87)
  else if 'A' ≤ ch ∧ ch ≤ 'F' then some (ch.toNat - 55)
  else none

/-- `hex::decode`: pairs of hex digits; odd length or a bad digit fails. -/
def hexDecode : List Char → Option (List Nat)
  | [] => some []
  | [_] => none
  | c1 :: c2 :: rest =>
    match hexDigitVal c1, hexDigitVal c2, hexDecode rest with
    | some h1, some h2, some bs => some ((16 * h1 + h2) :: bs)
    | _, _, _ => none

/-- Lowercase hex digit character, as emitted by `hex::encode`. -/
def hexDigitChar (d : Nat) : Char :=
  Char.ofNat (if d < 10 then 48 + d else 87 + d)

/-- `hex::encode`: two lowercase digits per byte. -/
def hexEncode (bs : List Nat) : List Char :=
  (bs.map (fun b => [hexDigitChar (b / 16 % 16), hexDigitChar (b % 16)])).flatten

/-- `bigint_to_hex`: hex of the magnitude bytes; the sign is dropped. -/
def bigint_to_hex (x : Int) : List Char :=
  hexEncode (to_bytes_be x.natAbs)

/-- `hex_to_bigint_strict` of `src_256/util.rs`. -/
def hex_to_bigint_strict (s : List Char) : Except String Int :=
  let t := trimChars s
  if t.isEmpty then Except.error "empty hex"
  else
    match hexDecode t with
    | none => Except.error "invalid hex"
    | some bytes =>
      if bytes.isEmpty then Except.error "zero-length bytes"
      else Except.ok ((natOfBytesBE bytes : Nat) : Int)

/-- Drop one optional leading plus sign. -/
def stripPlus (s : List Char) : List Char :=
  match s with
  | '+' :: rest => rest
  | other => other

/-- `str::parse::<usize>`: optional leading plus sign, then decimal digits.
(The `usize` overflow bound is not modelled; no claim depends on it.) -/
def parseUsize (s : List Char) : Option Nat :=
  let digits := stripPlus s
  if digits.isEmpty then none
  else if digits.all (fun ch => '0' ≤ ch ∧ ch ≤ '9') then
    some (digits.foldl (fun acc ch => acc * 10 + (ch.toNat - 48)) 0)
  else none

/-- `save_params`: three hex lines, g, h, n. -/
def save_params (g h n : Int) : List (List Char) :=
  [bigint_to_hex g, bigint_to_hex h, bigint_to_hex n]

/-- `load_params`.  The `?` operator of the source is the explicit match on
each fallible result. -/
def load_params (lines : List (List Char)) : Except String (Int × Int × Int) :=
  if lines.length < 3 then Except.error "params file too short"
  else
    match hex_to_bigint_strict (lines.getD 0 []) with
    | Except.error e => Except.error e
    | Except.ok g =>
      match hex_to_bigint_strict (lines.getD 1 []) with
      | Except.error e => Except.error e
      | Except.ok h =>
        match hex_to_bigint_strict (lines.getD 2 []) with
        | Except.error e => Except.error e
        | Except.ok n => Except.ok (g, h, n)

/-- `save_proof`: the fifteen scalars, the L length and entries, the R length
and entries, then the two final IPP scalars. -/
def save_proof (p : Cuproof) : List (List Char) :=
  [bigint_to_hex p.A, bigint_to_hex p.S, bigint_to_hex p.T1, bigint_to_hex p.T2,
   bigint_to_hex p.tau_x, bigint_to_hex p.mu, bigint_to_hex p.t_hat,
   bigint_to_hex p.C, bigint_to_hex p.C_v1, bigint_to_hex p.C_v2,
   bigint_to_hex p.t0, bigint_to_hex p.t1, bigint_to_hex p.t2,
   bigint_to_hex p.tau1, bigint_to_hex p.tau2] ++
  [natDecChars p.ipp_proof.L.length] ++ p.ipp_proof.L.map bigint_to_hex ++
  [natDecChars p.ipp_proof.R.length] ++ p.ipp_proof.R.map bigint_to_hex ++
  [bigint_to_hex p.ipp_proof.a, bigint_to_hex p.ipp_proof.b]

/-- The `take` closure of `load_proof`: next line, cursor advanced. -/
def takeLine (lines : List (List Char)) : Except String (List Char × List (List Char)) :=
  match lines with
  | [] => Except.error "unexpected end of file"
  | l :: rest => Except.ok (l, rest)

/-- One strict hex scalar read: next line, parsed strictly. -/
def readScalar (lines : List (List Char)) : Except String (Int × List (List Char)) :=
  match takeLine lines with
  | Except.error e => Except.error e
  | Except.ok (l, rest) =>
    match hex_to_bigint_strict l with
    | Except.error e => Except.error e
    | Except.ok x => Except.ok (x, rest)

/-- `k` consecutive strict hex scalar reads. -/
def readScalars : Nat → List (List Char) → Except String (List Int × List (List Char))
  | 0, lines => Except.ok ([], lines)
  | k + 1, lines =>
    match readScalar lines with
    | Except.error e => Except.error e
    | Except.ok (x, rest) =>
      match readScalars k rest with
      | Except.error e => Except.error e
      | Except.ok (xs, rest2) => Except.ok (x :: xs, rest2)

/-- `load_proof` of `src_256/util.rs`, checks in source order; the `?`
operator of the source is the explicit match on each fallible result. -/
def load_proof (lines : List (List Char)) : Except String Cuproof :=
  match readScalars 15 lines with
  | Except.error e => Except.error e
  | Except.ok (scalars, s15) =>
    match takeLine s15 with
    | Except.error e => Except.error e
    | Except.ok (lenL, s16) =>
      match parseUsize lenL with
      | none => Except.error "invalid L length"
      | some l_len =>
        if l_len == 0 then Except.error "L length must be > 0"
        else
          match readScalars l_len s16 with
          | Except.error e => Except.error e
          | Except.ok (lL, s17) =>
            match takeLine s17 with
            | Except.error e => Except.error e
            | Except.ok (lenR, s18) =>
              match parseUsize lenR with
              | none => Except.error "invalid R length"
              | some r_len =>
                if r_len == 0 then Except.error "R length must be > 0"
                else if r_len != l_len then Except.error "L and R length mismatch"
                else
                  match readScalars r_len s18 with
                  | Except.error e => Except.error e
                  | Except.ok (lR, s19) =>
                    match readScalar s19 with
                    | Except.error e => Except.error e
                    | Except.ok (ia, s20) =>
                      match readScalar s20 with
                      | Except.error e => Except.error e
                      | Except.ok (ib, _) =>
                        match scalars with
                        | [pA, pS, pT1, pT2, ptau_x, pmu, pt_hat, pC, pC_v1, pC_v2,
                           pt0, pt1, pt2, ptau1, ptau2] =>
                          if pA == 0 || pS == 0 || pT1 == 0 || pT2 == 0 then
                            Except.error "zero scalar in header"
                          else
                            Except.ok
                              { A := pA, S := pS, T1 := pT1, T2 := pT2, tau_x := ptau_x,
                                mu := pmu, t_hat := pt_hat, C := pC, C_v1 := pC_v1,
                                C_v2 := pC_v2, t0 := pt0, t1 := pt1, t2 := pt2,
                                tau1 := ptau1, tau2 := ptau2,
                                ipp_proof := { L := lL, R := lR, a := ia, b := ib } }
                        | _ => Except.error "unexpected end of file"

/-! ## Concrete instances used by witnesses and counterexamples -/

/-- A concrete randomness supply. -/
def rand0 : Nat → Nat := fun i => i + 1

/-- The recomputed challenge `x` of the handcrafted proof `p0` below. -/
def x0 : Int :=
  Int.tmod (fiat_shamir [pedersen_commit 2 3 1 1 77, pedersen_commit 2 3 1 1 77]) 77

/-- A handcrafted proof accepted by `cuproof_verify` under the parameters
(g, h, n) = (2, 3, 77): the commitment checks hold by construction and the
remaining checks only test non-zeroness, lengths and distinctness. -/
def p0 : Cuproof :=
  { A := 1, S := 2, T1 := pedersen_commit 2 3 1 1 77, T2 := pedersen_commit 2 3 1 1 77,
    tau_x := 1, mu := 1, t_hat := 1 + x0 + x0 * x0, C := 3, C_v1 := 4, C_v2 := 5,
    t0 := 1, t1 := 1, t2 := 1, tau1 := 1, tau2 := 1,
    ipp_proof := { L := [1, 1, 1, 1, 1, 1], R := [1, 1, 1, 1, 1, 1], a := 1, b := 1 } }

/-- The proof produced by the prover at the witness instance
`(v, r, a, b, g, h, n) = (42, 1, 1, 100, 2, 3, 77)` with the randomness supply
`rand0`. -/
def p1 : Cuproof := cuproof_prove 42 1 1 100 2 3 77 rand0

/-- A proof whose A field needs 33 big-endian magnitude bytes.  Such a proof
is loadable from a crafted file (the hex codec accepts lines of any length),
and makes the first `fiat_shamir` call of `cuproof_verify` panic. -/
def pbig : Cuproof := { p0 with A := 2 ^ 256 }

/-! ## Helper lemmas: modular arithmetic of the commitment scheme -/

theorem if_neg_abs (b : Int) : (if b < 0 then -b else b) = (b.natAbs : Int) := by
  split
  · omega
  · omega

theorem if_neg_abs_toNat (e : Int) : (if e < 0 then -e else e).toNat = e.natAbs := by
  rw [if_neg_abs]; omega

theorem powModAux_eq (b m : Nat) :
    ∀ fuel e, e ≤ fuel → powModAux b m fuel e = b ^ e % m := by
  intro fuel
  induction fuel with
  | zero =>
    intro e he
    interval_cases e
    simp [powModAux]
  | succ f ih =>
    intro e he
    rcases Nat.eq_zero_or_pos e with he0 | hpos
    · simp [powModAux, he0]
    · have hhalf : e / 2 ≤ f := by omega
      rw [powModAux, if_neg (by omega), ih _ hhalf]
      have hsq : b ^ (e / 2) % m * (b ^ (e / 2) % m) % m = b ^ (e / 2 + e / 2) % m := by
        rw [← Nat.mul_mod, ← pow_add]
      rcases Nat.eq_zero_or_pos (e % 2) with hev | hod
      · have he2 : e / 2 + e / 2 = e := by omega
        rw [if_neg (by omega), hsq, Nat.mul_one, Nat.mod_mod_of_dvd _ (dvd_refl m), he2]
      · have he2 : e / 2 + e / 2 + 1 = e := by omega
        rw [if_pos (by omega), hsq, ← Nat.mul_mod, ← pow_succ, he2]

/-- `powMod` computes the power modulo `m`. -/
theorem powMod_eq (b e m : Nat) : powMod b e m = b ^ e % m :=
  powModAux_eq b m e e le_rfl

theorem log2Aux_lt : ∀ fuel n : Nat, n ≤ fuel → n < 2 ^ (log2Aux fuel n + 1) := by
  intro fuel
  induction fuel with
  | zero =>
    intro n h
    interval_cases n
    simp [log2Aux]
  | succ f ih =>
    intro n h
    rw [log2Aux]
    split
    · rename_i h2
      simpa using h2
    · rename_i h2
      have hrec := ih (n / 2) (by omega)
      have hp : 2 ^ (log2Aux f (n / 2) + 1 + 1) = 2 * 2 ^ (log2Aux f (n / 2) + 1) := by
        ring
      rw [hp]
      omega

theorem isqrtBits_correct (n : Nat) : ∀ k r : Nat,
    r * r ≤ n → n < (r + 2 ^ k) * (r + 2 ^ k) →
    isqrtBits n k r * isqrtBits n k r ≤ n ∧
      n < (isqrtBits n k r + 1) * (isqrtBits n k r + 1) := by
  intro k
  induction k with
  | zero =>
    intro r h1 h2
    rw [isqrtBits]
    exact ⟨h1, by simpa using h2⟩
  | succ kk ih =>
    intro r h1 h2
    rw [isqrtBits]
    split
    · rename_i hle
      refine ih (r + 2 ^ kk) hle ?_
      have hp : (2:Nat) ^ (kk + 1) = 2 ^ kk + 2 ^ kk := by
        rw [pow_succ]
        omega
      rw [hp, ← add_assoc] at h2
      exact h2
    · rename_i hgt
      exact ih r h1 (by omega)

/-- `isqrt` is the floor square root. -/
theorem isqrt_correct (n : Nat) :
    isqrt n * isqrt n ≤ n ∧ n < (isqrt n + 1) * (isqrt n + 1) := by
  unfold isqrt
  apply isqrtBits_correct
  · simp
  · have h1 : n < 2 ^ (log2f n + 1) := log2Aux_lt n n le_rfl
    have h2 : log2f n + 1 ≤ (log2f n / 2 + 1) + (log2f n / 2 + 1) := by omega
    calc n < 2 ^ (log2f n + 1) := h1
      _ ≤ 2 ^ ((log2f n / 2 + 1) + (log2f n / 2 + 1)) :=
          Nat.pow_le_pow_right (by omega) h2
      _ = (0 + 2 ^ (log2f n / 2 + 1)) * (0 + 2 ^ (log2f n / 2 + 1)) := by
          rw [pow_add, Nat.zero_add]

/-- `mod_exp` as a single expression over magnitudes. -/
theorem mod_exp_eq (b e n : Int) :
    mod_exp b e n = ((b.natAbs ^ e.natAbs : Nat) : Int) % n := by
  simp only [mod_exp, if_neg_abs, Int.toNat_natCast, powMod_eq]
  push_cast
  rcases lt_trichotomy n 0 with hn | hn | hn
  · rw [abs_of_neg hn, Int.emod_neg]
  · subst hn; simp
  · rw [abs_of_pos hn]

/-- `mod_exp` over a positive modulus, entirely within `Nat`. -/
theorem mod_exp_eq_nat (b e : Int) {n : Int} (hn : 0 < n) :
    mod_exp b e n = ((b.natAbs ^ e.natAbs % n.toNat : Nat) : Int) := by
  rw [mod_exp_eq]
  push_cast [Int.toNat_of_nonneg (le_of_lt hn)]
  rfl

/-- `pedersen_commit` over a positive modulus, entirely within `Nat`. -/
theorem pedersen_commit_eq_nat (g h m r : Int) {n : Int} (hn : 0 < n) :
    pedersen_commit g h m r n =
      (((g.natAbs ^ m.natAbs % n.toNat) * (h.natAbs ^ r.natAbs % n.toNat) % n.toNat : Nat) : Int) := by
  unfold pedersen_commit
  rw [mod_exp_eq_nat g m hn, mod_exp_eq_nat h r hn]
  push_cast [Int.toNat_of_nonneg (le_of_lt hn)]
  rfl

theorem pedersen_commit_nonneg (g h m r : Int) {n : Int} (hn : 0 < n) :
    0 ≤ pedersen_commit g h m r n := by
  rw [pedersen_commit_eq_nat g h m r hn]; positivity

theorem pedersen_commit_lt (g h m r : Int) {n : Int} (hn : 0 < n) :
    pedersen_commit g h m r n < n := by
  unfold pedersen_commit
  exact Int.emod_lt_of_pos _ hn

/-- Coprimality survives reduction mod `n`. -/
theorem coprime_mod_left (a n : Nat) (h : Nat.Coprime a n) : Nat.Coprime (a % n) n := by
  unfold Nat.Coprime at h ⊢
  rw [← Nat.gcd_rec, Nat.gcd_comm]
  exact h

theorem natAbs_eq_toNat {n : Int} (hn : 0 ≤ n) : n.natAbs = n.toNat := by
  omega

/-- A Pedersen commitment under coprime generators is a unit mod `n`. -/
theorem pedersen_commit_coprime (g h m r : Int) {n : Int} (hn : 0 < n)
    (hg : Int.gcd g n = 1) (hh : Int.gcd h n = 1) :
    Nat.Coprime (pedersen_commit g h m r n).natAbs n.toNat := by
  rw [pedersen_commit_eq_nat g h m r hn, Int.natAbs_ofNat]
  have hg2 : Nat.Coprime g.natAbs n.toNat := by
    rwa [Int.gcd, natAbs_eq_toNat (le_of_lt hn)] at hg
  have hh2 : Nat.Coprime h.natAbs n.toNat := by
    rwa [Int.gcd, natAbs_eq_toNat (le_of_lt hn)] at hh
  exact coprime_mod_left _ _ ((coprime_mod_left _ _ (hg2.pow_left _)).mul
    (coprime_mod_left _ _ (hh2.pow_left _)))

theorem pedersen_commit_ne_zero (g h m r : Int) {n : Int} (hn : 1 < n)
    (hg : Int.gcd g n = 1) (hh : Int.gcd h n = 1) :
    pedersen_commit g h m r n ≠ 0 := by
  intro h0
  have := pedersen_commit_coprime g h m r (lt_trans one_pos hn) hg hh
  rw [h0] at this
  simp [Nat.Coprime] at this
  omega

/-- `Int.tmod` is the identity on `[0, n)`. -/
theorem tmod_eq_self {a n : Int} (h0 : 0 ≤ a) (h1 : a < n) : Int.tmod a n = a := by
  rw [Int.tmod_eq_emod h0 (le_trans h0 (le_of_lt h1))]
  exact Int.emod_eq_of_lt h0 h1

theorem pedersen_commit_tmod (g h m r : Int) {n : Int} (hn : 0 < n) :
    Int.tmod (pedersen_commit g h m r n) n = pedersen_commit g h m r n :=
  tmod_eq_self (pedersen_commit_nonneg g h m r hn) (pedersen_commit_lt g h m r hn)

/-- Bumping the exponent of `G` changes the product mod `N` when `G` is a
nontrivial unit: otherwise cancelling the unit `G^a * H^c` would force
`G ≡ 1 (mod N)`. -/
theorem pow_mul_mod_succ_ne (N G H a c : Nat) (hN : 1 < N) (hG2 : 2 ≤ G) (hGN : G < N)
    (hg : Nat.Coprime G N) (hh : Nat.Coprime H N) :
    (G ^ (a + 1) * H ^ c) % N ≠ (G ^ a * H ^ c) % N := by
  intro heq
  have hmod : (G ^ a * H ^ c) * G ≡ (G ^ a * H ^ c) * 1 [MOD N] := by
    have h1 : G ^ (a + 1) * H ^ c = (G ^ a * H ^ c) * G := by ring
    have h2 : G ^ a * H ^ c = (G ^ a * H ^ c) * 1 := by ring
    unfold Nat.ModEq
    rw [← h1, ← h2]
    exact heq
  have hcop : N.gcd (G ^ a * H ^ c) = 1 :=
    Nat.coprime_comm.mp ((hg.pow_left a).mul (hh.pow_left c))
  have hcanc : G ≡ 1 [MOD N] := Nat.ModEq.cancel_left_of_coprime hcop hmod
  have hG : G % N = 1 % N := hcanc
  rw [Nat.mod_eq_of_lt hGN, Nat.mod_eq_of_lt hN] at hG
  omega

/-- Commitments to `m + 1` and `m` under the same blinding differ, for a
nontrivial unit `g`. -/
theorem pedersen_commit_succ_m_ne (g h m r : Int) {n : Int} (hn : 1 < n)
    (hg2 : 2 ≤ g) (hgn : g < n) (hgcdg : Int.gcd g n = 1) (hgcdh : Int.gcd h n = 1) :
    pedersen_commit g h (m + 1) r n ≠ pedersen_commit g h m r n := by
  have hn0 : 0 < n := lt_trans one_pos hn
  rw [pedersen_commit_eq_nat _ _ _ _ hn0, pedersen_commit_eq_nat _ _ _ _ hn0]
  have hg2n : 2 ≤ g.natAbs := by omega
  have hgnn : g.natAbs < n.toNat := by omega
  have hNn : 1 < n.toNat := by omega
  have hcg : Nat.Coprime g.natAbs n.toNat := by
    rwa [Int.gcd, natAbs_eq_toNat (le_of_lt hn0)] at hgcdg
  have hch : Nat.Coprime h.natAbs n.toNat := by
    rwa [Int.gcd, natAbs_eq_toNat (le_of_lt hn0)] at hgcdh
  intro heq
  have heqn : g.natAbs ^ (m + 1).natAbs % n.toNat * (h.natAbs ^ r.natAbs % n.toNat) % n.toNat
      = g.natAbs ^ m.natAbs % n.toNat * (h.natAbs ^ r.natAbs % n.toNat) % n.toNat := by
    exact_mod_cast heq
  rw [← Nat.mul_mod, ← Nat.mul_mod] at heqn
  rcases le_or_lt 0 m with hm | hm
  · have habs : (m + 1).natAbs = m.natAbs + 1 := by omega
    rw [habs] at heqn
    exact pow_mul_mod_succ_ne n.toNat g.natAbs h.natAbs m.natAbs r.natAbs
      hNn hg2n hgnn hcg hch heqn
  · have habs : m.natAbs = (m + 1).natAbs + 1 := by omega
    rw [habs] at heqn
    exact pow_mul_mod_succ_ne n.toNat g.natAbs h.natAbs (m + 1).natAbs r.natAbs
      hNn hg2n hgnn hcg hch heqn.symm

/-- Commitments under blindings `r + 1` and `r` to the same message differ,
for a nontrivial unit `h`. -/
theorem pedersen_commit_succ_r_ne (g h m r : Int) {n : Int} (hn : 1 < n)
    (hh2 : 2 ≤ h) (hhn : h < n) (hgcdg : Int.gcd g n = 1) (hgcdh : Int.gcd h n = 1) :
    pedersen_commit g h m (r + 1) n ≠ pedersen_commit g h m r n := by
  have hn0 : 0 < n := lt_trans one_pos hn
  rw [pedersen_commit_eq_nat _ _ _ _ hn0, pedersen_commit_eq_nat _ _ _ _ hn0]
  have hh2n : 2 ≤ h.natAbs := by omega
  have hhnn : h.natAbs < n.toNat := by omega
  have hNn : 1 < n.toNat := by omega
  have hcg : Nat.Coprime g.natAbs n.toNat := by
    rwa [Int.gcd, natAbs_eq_toNat (le_of_lt hn0)] at hgcdg
  have hch : Nat.Coprime h.natAbs n.toNat := by
    rwa [Int.gcd, natAbs_eq_toNat (le_of_lt hn0)] at hgcdh
  intro heq
  have heqn : g.natAbs ^ m.natAbs % n.toNat * (h.natAbs ^ (r + 1).natAbs % n.toNat) % n.toNat
      = g.natAbs ^ m.natAbs % n.toNat * (h.natAbs ^ r.natAbs % n.toNat) % n.toNat := by
    exact_mod_cast heq
  rw [← Nat.mul_mod, ← Nat.mul_mod] at heqn
  have hcomm : ∀ x y : Nat, g.natAbs ^ x * h.natAbs ^ y = h.natAbs ^ y * g.natAbs ^ x :=
    fun x y => Nat.mul_comm _ _
  rw [hcomm, hcomm] at heqn
  rcases le_or_lt 0 r with hr | hr
  · have habs : (r + 1).natAbs = r.natAbs + 1 := by omega
    rw [habs] at heqn
    exact pow_mul_mod_succ_ne n.toNat h.natAbs g.natAbs r.natAbs m.natAbs
      hNn hh2n hhnn hch hcg heqn
  · have habs : r.natAbs = (r + 1).natAbs + 1 := by omega
    rw [habs] at heqn
    exact pow_mul_mod_succ_ne n.toNat h.natAbs g.natAbs (r + 1).natAbs m.natAbs
      hNn hh2n hhnn hch hcg heqn.symm

/-! ## Helper lemmas: the verifier as a conjunction of propositions -/

/-- The recomputed challenges of a proof, named for reuse. -/
theorem cuproof_verify_eq_true_iff (proof : Cuproof) (g h n : Int) :
    cuproof_verify proof g h n = true ↔
      (Int.tmod (fiat_shamir [proof.A, proof.S, proof.C, proof.C_v1, proof.C_v2]) n ≠ 0 ∧
       Int.tmod (fiat_shamir
         [Int.tmod (fiat_shamir [proof.A, proof.S, proof.C, proof.C_v1, proof.C_v2]) n]) n ≠ 0 ∧
       Int.tmod (fiat_shamir [proof.T1, proof.T2]) n ≠ 0 ∧
       pedersen_commit g h proof.t1 proof.tau1 n = proof.T1 ∧
       pedersen_commit g h proof.t2 proof.tau2 n = proof.T2 ∧
       proof.t_hat = proof.t0 + proof.t1 * Int.tmod (fiat_shamir [proof.T1, proof.T2]) n +
         proof.t2 * Int.tmod (fiat_shamir [proof.T1, proof.T2]) n *
           Int.tmod (fiat_shamir [proof.T1, proof.T2]) n ∧
       pedersen_commit g h proof.t_hat proof.tau_x n =
         pedersen_commit g h (proof.t0 + proof.t1 * Int.tmod (fiat_shamir [proof.T1, proof.T2]) n +
           proof.t2 * Int.tmod (fiat_shamir [proof.T1, proof.T2]) n *
             Int.tmod (fiat_shamir [proof.T1, proof.T2]) n) proof.tau_x n ∧
       proof.ipp_proof.L.length = proof.ipp_proof.R.length ∧
       proof.ipp_proof.L.length = 6 ∧
       Int.tmod proof.A n ≠ 0 ∧ Int.tmod proof.S n ≠ 0 ∧
       Int.tmod proof.T1 n ≠ 0 ∧ Int.tmod proof.T2 n ≠ 0 ∧
       Int.tmod proof.C n ≠ 0 ∧ Int.tmod proof.C_v1 n ≠ 0 ∧
       Int.tmod proof.C_v2 n ≠ 0 ∧
       proof.C ≠ proof.C_v1 ∧ proof.C ≠ proof.C_v2 ∧ proof.C_v1 ≠ proof.C_v2) := by
  unfold cuproof_verify
  simp only [Bool.and_eq_true, Bool.not_eq_true', beq_eq_false_iff_ne, beq_iff_eq, and_assoc,
    ne_eq]

theorem cuproof_verify_no_step4_eq_true_iff (proof : Cuproof) (g h n : Int) :
    cuproof_verify_no_step4 proof g h n = true ↔
      (Int.tmod (fiat_shamir [proof.A, proof.S, proof.C, proof.C_v1, proof.C_v2]) n ≠ 0 ∧
       Int.tmod (fiat_shamir
         [Int.tmod (fiat_shamir [proof.A, proof.S, proof.C, proof.C_v1, proof.C_v2]) n]) n ≠ 0 ∧
       Int.tmod (fiat_shamir [proof.T1, proof.T2]) n ≠ 0 ∧
       pedersen_commit g h proof.t1 proof.tau1 n = proof.T1 ∧
       pedersen_commit g h proof.t2 proof.tau2 n = proof.T2 ∧
       proof.t_hat = proof.t0 + proof.t1 * Int.tmod (fiat_shamir [proof.T1, proof.T2]) n +
         proof.t2 * Int.tmod (fiat_shamir [proof.T1, proof.T2]) n *
           Int.tmod (fiat_shamir [proof.T1, proof.T2]) n ∧
       proof.ipp_proof.L.length = proof.ipp_proof.R.length ∧
       proof.ipp_proof.L.length = 6 ∧
       Int.tmod proof.A n ≠ 0 ∧ Int.tmod proof.S n ≠ 0 ∧
       Int.tmod proof.T1 n ≠ 0 ∧ Int.tmod proof.T2 n ≠ 0 ∧
       Int.tmod proof.C n ≠ 0 ∧ Int.tmod proof.C_v1 n ≠ 0 ∧
       Int.tmod proof.C_v2 n ≠ 0 ∧
       proof.C ≠ proof.C_v1 ∧ proof.C ≠ proof.C_v2 ∧ proof.C_v1 ≠ proof.C_v2) := by
  unfold cuproof_verify_no_step4
  simp only [Bool.and_eq_true, Bool.not_eq_true', beq_eq_false_iff_ne, beq_iff_eq, and_assoc,
    ne_eq]

/-- Step 4 never decides the verdict: the verifier with step 4 removed is the
same boolean function. -/
theorem step4_redundant (proof : Cuproof) (g h n : Int) :
    cuproof_verify_no_step4 proof g h n = cuproof_verify proof g h n := by
  rw [Bool.eq_iff_iff, cuproof_verify_no_step4_eq_true_iff, cuproof_verify_eq_true_iff]
  constructor
  · rintro ⟨h1, h2, h3, h4, h5, h6, rest⟩
    exact ⟨h1, h2, h3, h4, h5, h6, by rw [h6], rest⟩
  · rintro ⟨h1, h2, h3, h4, h5, h6, _, rest⟩
    exact ⟨h1, h2, h3, h4, h5, h6, rest⟩

/-- The recursion produces exactly `k` L-entries and `k` R-entries on
power-of-two input length `2 ^ k`, for any sufficient fuel. -/
theorem ipp_lengths (g h n : Int) (rand : Nat → Nat) :
    ∀ (k fuel idx : Nat) (l r : List Int), l.length = 2 ^ k → r.length = 2 ^ k → k < fuel →
      ((inner_product_argument_recursive g h n rand fuel idx l r).2.2.1.length = k ∧
       (inner_product_argument_recursive g h n rand fuel idx l r).2.2.2.length = k) := by
  intro k
  induction k with
  | zero =>
    intro fuel idx l r hl hr hk
    obtain ⟨f, rfl⟩ : ∃ f, fuel = f + 1 := ⟨fuel - 1, by omega⟩
    simp only [inner_product_argument_recursive]
    rw [if_pos (by simp [hl])]
    exact ⟨rfl, rfl⟩
  | succ k ih =>
    intro fuel idx l r hl hr hk
    obtain ⟨f, rfl⟩ : ∃ f, fuel = f + 1 := ⟨fuel - 1, by omega⟩
    have hne : (l.length == 1) = false := by
      simp only [hl, Nat.pow_succ, beq_eq_false_iff_ne, ne_eq]
      omega
    have hlnew : (((l.take (l.length / 2)).zip (l.drop (l.length / 2))).map
        (fun p => p.1 + Int.tmod (fiat_shamir
          [pedersen_commit g h (inner_product (l.take (l.length / 2)) (r.drop (l.length / 2)))
            (random_bigint rand idx 256) n,
           pedersen_commit g h (inner_product (l.drop (l.length / 2)) (r.take (l.length / 2)))
            (random_bigint rand (idx + 1) 256) n]) n * p.2)).length = 2 ^ k := by
      simp [hl, Nat.pow_succ]
      omega
    have hrnew : (((r.take (l.length / 2)).zip (r.drop (l.length / 2))).map
        (fun p => p.2 + Int.tmod (fiat_shamir
          [pedersen_commit g h (inner_product (l.take (l.length / 2)) (r.drop (l.length / 2)))
            (random_bigint rand idx 256) n,
           pedersen_commit g h (inner_product (l.drop (l.length / 2)) (r.take (l.length / 2)))
            (random_bigint rand (idx + 1) 256) n]) n * p.1)).length = 2 ^ k := by
      simp [hl, hr, Nat.pow_succ]
      omega
    simp only [inner_product_argument_recursive, hne, Bool.false_eq_true, if_false]
    obtain ⟨ih1, ih2⟩ := ih f (idx + 2) _ _ hlnew hrnew (by omega)
    constructor
    · simp only [List.length_append, ih1, List.length_singleton]
    · simp only [List.length_append, ih2, List.length_singleton]

/-! ## Helper lemmas: the range wrapper and basic value facts -/

theorem withRange_false_of_le (p : Cuproof) (g h n a b : Int) (hab : b ≤ a) :
    cuproof_verify_with_range p g h n a b = false := by
  unfold cuproof_verify_with_range
  rcases Bool.eq_false_or_eq_true (cuproof_verify p g h n) with hv | hv <;>
    simp [hv] <;> omega

theorem withRange_eq_verify_of_lt (p : Cuproof) (g h n a b : Int) (hab : a < b) :
    cuproof_verify_with_range p g h n a b = cuproof_verify p g h n := by
  unfold cuproof_verify_with_range
  rcases Bool.eq_false_or_eq_true (cuproof_verify p g h n) with hv | hv <;>
    simp [hv] <;> omega

theorem fiat_shamir_nonneg (l : List Int) : 0 ≤ fiat_shamir l :=
  Int.ofNat_nonneg _

theorem tmod_nonneg_lt {a n : Int} (ha : 0 ≤ a) (hn : 0 < n) :
    0 ≤ Int.tmod a n ∧ Int.tmod a n < n := by
  rw [Int.tmod_eq_emod ha (le_of_lt hn)]
  exact ⟨Int.emod_nonneg a (ne_of_gt hn), Int.emod_lt_of_pos a hn⟩

theorem pc_tmod_ne_zero (g h m r : Int) {n : Int} (hn : 1 < n)
    (hg : Int.gcd g n = 1) (hh : Int.gcd h n = 1) :
    Int.tmod (pedersen_commit g h m r n) n ≠ 0 := by
  rw [pedersen_commit_tmod g h m r (lt_trans one_pos hn)]
  exact pedersen_commit_ne_zero g h m r hn hg hh

/-! ## Helper lemmas: lengths of the prover vectors -/

theorem prv_d_length (v a b : Int) (dim : Nat) : (prv_d v a b dim).length = dim := by
  simp [prv_d]

theorem prv_l0_length (v r a b g h n : Int) (dim : Nat) (rand : Nat → Nat) :
    (prv_l0 v r a b g h n dim rand).length = dim := by
  simp [prv_l0, prv_d_length]

theorem prv_r0_length (v r a b g h n : Int) (dim : Nat) (rand : Nat → Nat) :
    (prv_r0 v r a b g h n dim rand).length = dim := by
  simp [prv_r0, prv_d_length]

theorem prv_sL_length (dim : Nat) (rand : Nat → Nat) : (prv_sL dim rand).length = dim := by
  simp [prv_sL]

theorem prv_sR_length (dim : Nat) (rand : Nat → Nat) : (prv_sR dim rand).length = dim := by
  simp [prv_sR]

theorem prv_l_vec_length (v r a b g h n : Int) (dim : Nat) (rand : Nat → Nat) :
    (prv_l_vec v r a b g h n dim rand).length = dim := by
  simp [prv_l_vec, prv_l0_length, prv_sL_length]

theorem prv_r_vec_length (v r a b g h n : Int) (dim : Nat) (rand : Nat → Nat) :
    (prv_r_vec v r a b g h n dim rand).length = dim := by
  simp [prv_r_vec, prv_r0_length, prv_sR_length]

/-- L/R lengths of the assembled dimension-64 proof are both 6. -/
theorem prove_ipp_lengths (v r a b g h n : Int) (rand : Nat → Nat) :
    (cuproof_prove v r a b g h n rand).ipp_proof.L.length = 6 ∧
    (cuproof_prove v r a b g h n rand).ipp_proof.R.length = 6 := by
  have hl : (prv_l_vec v r a b g h n 64 rand).length = 2 ^ 6 :=
    prv_l_vec_length v r a b g h n 64 rand
  have hr : (prv_r_vec v r a b g h n 64 rand).length = 2 ^ 6 :=
    prv_r_vec_length v r a b g h n 64 rand
  have hfuel : 6 < (prv_l_vec v r a b g h n 64 rand).length := by
    rw [prv_l_vec_length]; omega
  have := ipp_lengths g h n rand 6 (prv_l_vec v r a b g h n 64 rand).length
    (7 + 2 * 64) (prv_l_vec v r a b g h n 64 rand) (prv_r_vec v r a b g h n 64 rand)
    hl hr hfuel
  exact this

/-- Claim C1 (corrected).  Completeness of `cuproof_prove` followed by
`cuproof_verify_with_range` holds only in amended form: the bounds must be
strictly ordered (`a < b`; the wrapper rejects `a = b` unconditionally, see the
counterexample), and the three recomputed Fiat-Shamir challenges must be
nonzero modulo `n` and the three value commitments pairwise distinct — side
conditions the verifier tests and that can fail for unlucky randomness, so no
unconditional completeness statement is true of the code. -/
theorem completeness_of_prove
    (v r a b g h n : Int) (rand : Nat → Nat) (p : Cuproof)
    (hp : p = cuproof_prove v r a b g h n rand)
    (hsp : SetupParams g h n) (hn256 : n ≤ 2 ^ 256)
    (hab : a < b) (hav : a ≤ v) (hvb : v ≤ b)
    (hy : Int.tmod (fiat_shamir [p.A, p.S, p.C, p.C_v1, p.C_v2]) n ≠ 0)
    (hz : Int.tmod (fiat_shamir
      [Int.tmod (fiat_shamir [p.A, p.S, p.C, p.C_v1, p.C_v2]) n]) n ≠ 0)
    (hx : Int.tmod (fiat_shamir [p.T1, p.T2]) n ≠ 0)
    (hc1 : p.C ≠ p.C_v1) (hc2 : p.C ≠ p.C_v2) (hc3 : p.C_v1 ≠ p.C_v2) :
    cuproof_verify_with_range p g h n a b = true := by
  obtain ⟨hn1, hg2, hgn, hh2, hhn, hgh, hgcdg, hgcdh⟩ := hsp
  subst hp
  rw [withRange_eq_verify_of_lt _ _ _ _ _ _ hab]
  rw [cuproof_verify_eq_true_iff]
  refine ⟨hy, hz, hx, rfl, rfl, rfl, rfl,
    ((prove_ipp_lengths v r a b g h n rand).1).trans
      ((prove_ipp_lengths v r a b g h n rand).2).symm,
    (prove_ipp_lengths v r a b g h n rand).1,
    ?_, ?_, ?_, ?_, ?_, ?_, ?_, hc1, hc2, hc3⟩
  · exact pc_tmod_ne_zero g h _ _ hn1 hgcdg hgcdh
  · exact pc_tmod_ne_zero g h _ _ hn1 hgcdg hgcdh
  · exact pc_tmod_ne_zero g h _ _ hn1 hgcdg hgcdh
  · exact pc_tmod_ne_zero g h _ _ hn1 hgcdg hgcdh
  · exact pc_tmod_ne_zero g h _ _ hn1 hgcdg hgcdh
  · exact pc_tmod_ne_zero g h _ _ hn1 hgcdg hgcdh
  · exact pc_tmod_ne_zero g h _ _ hn1 hgcdg hgcdh

/-- Claim C2 (corrected).  Tamper analysis of `cuproof_verify`: bumping any of
the eight fields the verifier actually constrains (T1, T2, t0, t1, t2, tau1,
tau2, t_hat) flips an accepted proof to rejected, but — against the claim —
bumping `mu` or `tau_x` NEVER does: `mu` is not read at all, and the step-4
comparison holds for every `tau_x` once step 3 holds.  (Bumping A, S, C, C_v1
or C_v2 is likewise accepted in general, since those fields are only tested
for nonzeroness and distinctness; see the counterexample.) -/
theorem tamper_detection (proof : Cuproof) (g h n : Int)
    (hsp : SetupParams g h n)
    (hacc : cuproof_verify proof g h n = true) :
    cuproof_verify { proof with T1 := proof.T1 + 1 } g h n = false ∧
    cuproof_verify { proof with T2 := proof.T2 + 1 } g h n = false ∧
    cuproof_verify { proof with t0 := proof.t0 + 1 } g h n = false ∧
    cuproof_verify { proof with t1 := proof.t1 + 1 } g h n = false ∧
    cuproof_verify { proof with t2 := proof.t2 + 1 } g h n = false ∧
    cuproof_verify { proof with tau1 := proof.tau1 + 1 } g h n = false ∧
    cuproof_verify { proof with tau2 := proof.tau2 + 1 } g h n = false ∧
    cuproof_verify { proof with t_hat := proof.t_hat + 1 } g h n = false ∧
    cuproof_verify { proof with mu := proof.mu + 1 } g h n = true ∧
    cuproof_verify { proof with tau_x := proof.tau_x + 1 } g h n = true := by
  obtain ⟨hn1, hg2, hgn, hh2, hhn, hgh, hgcdg, hgcdh⟩ := hsp
  obtain ⟨hy, hz, hx, hT1, hT2, hth, hstep4, hlen1, hlen2, hA, hS, hT1z, hT2z, hC,
    hCv1, hCv2, hd1, hd2, hd3⟩ := (cuproof_verify_eq_true_iff proof g h n).mp hacc
  refine ⟨?_, ?_, ?_, ?_, ?_, ?_, ?_, ?_, ?_, ?_⟩
  · rw [Bool.eq_false_iff]
    intro hacc2
    obtain ⟨_, _, _, hT1t, _⟩ := (cuproof_verify_eq_true_iff _ g h n).mp hacc2
    have hT1b : pedersen_commit g h proof.t1 proof.tau1 n = proof.T1 + 1 := hT1t
    omega
  · rw [Bool.eq_false_iff]
    intro hacc2
    obtain ⟨_, _, _, _, hT2t, _⟩ := (cuproof_verify_eq_true_iff _ g h n).mp hacc2
    have hT2b : pedersen_commit g h proof.t2 proof.tau2 n = proof.T2 + 1 := hT2t
    omega
  · rw [Bool.eq_false_iff]
    intro hacc2
    obtain ⟨_, _, _, _, _, htht, _⟩ := (cuproof_verify_eq_true_iff _ g h n).mp hacc2
    have hthb : proof.t_hat = proof.t0 + 1 +
        proof.t1 * Int.tmod (fiat_shamir [proof.T1, proof.T2]) n +
        proof.t2 * Int.tmod (fiat_shamir [proof.T1, proof.T2]) n *
          Int.tmod (fiat_shamir [proof.T1, proof.T2]) n := htht
    omega
  · rw [Bool.eq_false_iff]
    intro hacc2
    obtain ⟨_, _, _, hT1t, _⟩ := (cuproof_verify_eq_true_iff _ g h n).mp hacc2
    have hT1b : pedersen_commit g h (proof.t1 + 1) proof.tau1 n = proof.T1 := hT1t
    exact pedersen_commit_succ_m_ne g h proof.t1 proof.tau1 hn1 hg2 hgn hgcdg hgcdh
      (hT1b.trans hT1.symm)
  · rw [Bool.eq_false_iff]
    intro hacc2
    obtain ⟨_, _, _, _, hT2t, _⟩ := (cuproof_verify_eq_true_iff _ g h n).mp hacc2
    have hT2b : pedersen_commit g h (proof.t2 + 1) proof.tau2 n = proof.T2 := hT2t
    exact pedersen_commit_succ_m_ne g h proof.t2 proof.tau2 hn1 hg2 hgn hgcdg hgcdh
      (hT2b.trans hT2.symm)
  · rw [Bool.eq_false_iff]
    intro hacc2
    obtain ⟨_, _, _, hT1t, _⟩ := (cuproof_verify_eq_true_iff _ g h n).mp hacc2
    have hT1b : pedersen_commit g h proof.t1 (proof.tau1 + 1) n = proof.T1 := hT1t
    exact pedersen_commit_succ_r_ne g h proof.t1 proof.tau1 hn1 hh2 hhn hgcdg hgcdh
      (hT1b.trans hT1.symm)
  · rw [Bool.eq_false_iff]
    intro hacc2
    obtain ⟨_, _, _, _, hT2t, _⟩ := (cuproof_verify_eq_true_iff _ g h n).mp hacc2
    have hT2b : pedersen_commit g h proof.t2 (proof.tau2 + 1) n = proof.T2 := hT2t
    exact pedersen_commit_succ_r_ne g h proof.t2 proof.tau2 hn1 hh2 hhn hgcdg hgcdh
      (hT2b.trans hT2.symm)
  · rw [Bool.eq_false_iff]
    intro hacc2
    obtain ⟨_, _, _, _, _, htht, _⟩ := (cuproof_verify_eq_true_iff _ g h n).mp hacc2
    have hthb : proof.t_hat + 1 = proof.t0 +
        proof.t1 * Int.tmod (fiat_shamir [proof.T1, proof.T2]) n +
        proof.t2 * Int.tmod (fiat_shamir [proof.T1, proof.T2]) n *
          Int.tmod (fiat_shamir [proof.T1, proof.T2]) n := htht
    omega
  · rw [cuproof_verify_eq_true_iff]
    exact ⟨hy, hz, hx, hT1, hT2, hth, hstep4, hlen1, hlen2, hA, hS, hT1z, hT2z, hC,
      hCv1, hCv2, hd1, hd2, hd3⟩
  · rw [cuproof_verify_eq_true_iff]
    refine ⟨hy, hz, hx, hT1, hT2, hth, ?_, hlen1, hlen2, hA, hS, hT1z, hT2z, hC,
      hCv1, hCv2, hd1, hd2, hd3⟩
    show pedersen_commit g h proof.t_hat (proof.tau_x + 1) n = _
    rw [hth]

/-! ## Helper lemmas: byte encodings -/

theorem natBytesBEAux_zero (fuel : Nat) : natBytesBEAux fuel 0 = [] := by
  cases fuel <;> simp [natBytesBEAux]

theorem natOfBytesBE_append (l1 l2 : List Nat) :
    natOfBytesBE (l1 ++ l2) = l2.foldl (fun acc b => acc * 256 + b % 256) (natOfBytesBE l1) := by
  unfold natOfBytesBE
  rw [List.foldl_append]

/-- Decoding the fuel-recursive big-endian expansion recovers the value. -/
theorem natOfBytesBE_natBytesBEAux :
    ∀ fuel n : Nat, n ≤ fuel → natOfBytesBE (natBytesBEAux fuel n) = n := by
  intro fuel
  induction fuel with
  | zero => intro n hn; interval_cases n; simp [natBytesBEAux, natOfBytesBE]
  | succ f ih =>
    intro n hn
    by_cases h0 : n = 0
    · subst h0; simp [natBytesBEAux, natOfBytesBE]
    · rw [natBytesBEAux, if_neg h0, natOfBytesBE_append]
      by_cases hdiv : n / 256 = 0
      · rw [hdiv, natBytesBEAux_zero]
        have : n % 256 = n := Nat.mod_eq_of_lt (by omega)
        simp [natOfBytesBE, this]
      · have hle : n / 256 ≤ f := by omega
        rw [ih (n / 256) hle]
        simp only [List.foldl_cons, List.foldl_nil]
        omega

theorem natOfBytesBE_to_bytes_be (n : Nat) : natOfBytesBE (to_bytes_be n) = n := by
  unfold to_bytes_be
  by_cases h0 : n = 0
  · subst h0; simp [natOfBytesBE]
  · rw [if_neg h0]
    exact natOfBytesBE_natBytesBEAux n n le_rfl

theorem natBytesBEAux_length :
    ∀ fuel n k : Nat, n < 256 ^ k → (natBytesBEAux fuel n).length ≤ k := by
  intro fuel
  induction fuel with
  | zero => intro n k _; simp [natBytesBEAux]
  | succ f ih =>
    intro n k hn
    by_cases h0 : n = 0
    · subst h0; simp [natBytesBEAux]
    · rw [natBytesBEAux, if_neg h0]
      obtain ⟨j, rfl⟩ : ∃ j, k = j + 1 := by
        rcases k with _ | j
        · simp at hn; omega
        · exact ⟨j, rfl⟩
      have hdivlt : n / 256 < 256 ^ j := by
        rw [Nat.div_lt_iff_lt_mul (by omega)]
        calc n < 256 ^ (j + 1) := hn
        _ = 256 ^ j * 256 := by ring
      simp only [List.length_append, List.length_singleton]
      have := ih (n / 256) j hdivlt
      omega

theorem to_bytes_be_length {n k : Nat} (hk : 1 ≤ k) (hn : n < 256 ^ k) :
    (to_bytes_be n).length ≤ k := by
  unfold to_bytes_be
  by_cases h0 : n = 0
  · subst h0; simpa using hk
  · rw [if_neg h0]
    exact natBytesBEAux_length n n k hn

theorem to_bytes_be_ne_nil (n : Nat) : to_bytes_be n ≠ [] := by
  unfold to_bytes_be
  by_cases h0 : n = 0
  · subst h0; simp
  · rw [if_neg h0]
    obtain ⟨f, hf⟩ : ∃ f, n = f + 1 := ⟨n - 1, by omega⟩
    rw [hf]
    simp [natBytesBEAux, Nat.succ_ne_zero]

theorem natBytesBEAux_bytes_lt :
    ∀ fuel n : Nat, ∀ x ∈ natBytesBEAux fuel n, x < 256 := by
  intro fuel
  induction fuel with
  | zero => intro n x hx; simp [natBytesBEAux] at hx
  | succ f ih =>
    intro n x hx
    by_cases h0 : n = 0
    · subst h0; simp [natBytesBEAux] at hx
    · rw [natBytesBEAux, if_neg h0] at hx
      rcases List.mem_append.mp hx with hx | hx
      · exact ih _ x hx
      · simp at hx; omega

theorem to_bytes_be_bytes_lt (n : Nat) : ∀ x ∈ to_bytes_be n, x < 256 := by
  unfold to_bytes_be
  by_cases h0 : n = 0
  · subst h0; intro x hx; simp at hx; omega
  · rw [if_neg h0]; exact natBytesBEAux_bytes_lt n n

/-- Leading zero bytes do not change the decoded value. -/
theorem natOfBytesBE_replicate_zero (k : Nat) (bs : List Nat) :
    natOfBytesBE (List.replicate k 0 ++ bs) = natOfBytesBE bs := by
  induction k with
  | zero => simp
  | succ j ih =>
    rw [List.replicate_succ, List.cons_append]
    unfold natOfBytesBE at ih ⊢
    simpa using ih

/-- Decoding the 32-byte Fiat-Shamir padding of a non-negative input recovers
its magnitude. -/
theorem natOfBytesBE_fs_pad32 {x : Int} (h0 : 0 ≤ x) :
    natOfBytesBE (fs_pad32 x) = x.natAbs := by
  unfold fs_pad32
  rw [if_neg (by omega)]
  rw [natOfBytesBE_replicate_zero, natOfBytesBE_to_bytes_be]

theorem fs_pad32_length {x : Int} (hn : x.natAbs < 2 ^ 256) : (fs_pad32 x).length = 32 := by
  have hlen : (to_bytes_be x.natAbs).length ≤ 32 := by
    apply to_bytes_be_length (by omega)
    calc x.natAbs < 2 ^ 256 := hn
    _ = 256 ^ 32 := by norm_num
  have hne : to_bytes_be x.natAbs ≠ [] := to_bytes_be_ne_nil _
  have hpos : 0 < (to_bytes_be x.natAbs).length := List.length_pos.mpr hne
  unfold fs_pad32
  split <;> simp <;> omega

theorem fs_pad32_inj {x y : Int} (hx0 : 0 ≤ x) (hx : x.natAbs < 2 ^ 256)
    (hy0 : 0 ≤ y) (hy : y.natAbs < 2 ^ 256) (heq : fs_pad32 x = fs_pad32 y) : x = y := by
  have := congrArg natOfBytesBE heq
  rw [natOfBytesBE_fs_pad32 hx0, natOfBytesBE_fs_pad32 hy0] at this
  omega

/-- The Keccak-variant hash input determines the input sequence, on inputs
whose elements have magnitude below `2^256`. -/
theorem fiat_shamir_input_inj :
    ∀ (l1 l2 : List Int),
      (∀ x ∈ l1, 0 ≤ x ∧ x.natAbs < 2 ^ 256) → (∀ x ∈ l2, 0 ≤ x ∧ x.natAbs < 2 ^ 256) →
      fiat_shamir_input l1 = fiat_shamir_input l2 → l1 = l2 := by
  intro l1
  induction l1 with
  | nil =>
    intro l2 _ h2 heq
    cases l2 with
    | nil => rfl
    | cons y t =>
      exfalso
      obtain ⟨hy0, hy⟩ := h2 y (by simp)
      have hlen := congrArg List.length heq
      simp only [fiat_shamir_input, List.map_cons, List.map_nil, List.flatten_cons,
        List.flatten_nil, List.length_append, List.length_nil] at hlen
      have : (fs_pad32 y).length = 32 := fs_pad32_length hy
      omega
  | cons x t ih =>
    intro l2 h1 h2 heq
    cases l2 with
    | nil =>
      exfalso
      obtain ⟨hx0, hx⟩ := h1 x (by simp)
      have hlen := congrArg List.length heq
      simp only [fiat_shamir_input, List.map_cons, List.map_nil, List.flatten_cons,
        List.flatten_nil, List.length_append, List.length_nil] at hlen
      have : (fs_pad32 x).length = 32 := fs_pad32_length hx
      omega
    | cons y t2 =>
      obtain ⟨hx0, hx⟩ := h1 x (by simp)
      obtain ⟨hy0, hy⟩ := h2 y (by simp)
      have hx32 : (fs_pad32 x).length = 32 := fs_pad32_length hx
      have hy32 : (fs_pad32 y).length = 32 := fs_pad32_length hy
      have heq2 : fs_pad32 x ++ fiat_shamir_input t = fs_pad32 y ++ fiat_shamir_input t2 := by
        simpa only [fiat_shamir_input, List.map_cons, List.flatten_cons] using heq
      obtain ⟨hheads, htails⟩ := List.append_inj heq2 (by omega)
      have hxy : x = y := fs_pad32_inj hx0 hx hy0 hy hheads
      have htl : t = t2 := ih t2 (fun z hz => h1 z (by simp [hz]))
        (fun z hz => h2 z (by simp [hz])) htails
      rw [hxy, htl]

/-- A list of length at least two with pairwise-distinct entries is not its
own reverse. -/
theorem reverse_ne_of_nodup (l : List Int) (hlen : 2 ≤ l.length)
    (hnd : l.Pairwise (· ≠ ·)) : l.reverse ≠ l := by
  intro heq
  match l, hlen, hnd with
  | x :: y :: t, _, hnd =>
    have h1 : (x :: y :: t).getLast? = some x := by
      rw [← List.head?_reverse, heq]; rfl
    have h2 : (y :: t).getLast? = some x := h1
    have hmem : x ∈ y :: t := List.mem_of_mem_getLast? (by rw [h2]; rfl)
    have := (List.pairwise_cons.mp hnd).1 x hmem
    exact this rfl

/-! ## Helper lemmas: the codec -/

theorem hexDigitVal_hexDigitChar : ∀ d : Nat, d < 16 → hexDigitVal (hexDigitChar d) = some d := by
  decide

theorem isSpaceChar_hexDigitChar : ∀ d : Nat, d < 16 → isSpaceChar (hexDigitChar d) = false := by
  decide

theorem hexDecode_hexEncode :
    ∀ bs : List Nat, (∀ b ∈ bs, b < 256) → hexDecode (hexEncode bs) = some bs := by
  intro bs
  induction bs with
  | nil => intro _; rfl
  | cons b t ih =>
    intro hb
    have hb256 := hb b (by simp)
    have hhi : b / 16 % 16 < 16 := Nat.mod_lt _ (by omega)
    have hlo : b % 16 < 16 := Nat.mod_lt _ (by omega)
    have e1 := hexDigitVal_hexDigitChar _ hhi
    have e2 := hexDigitVal_hexDigitChar _ hlo
    have ih2 := ih (fun x hx => hb x (by simp [hx]))
    show hexDecode (hexDigitChar (b / 16 % 16) :: hexDigitChar (b % 16) :: hexEncode t) =
      some (b :: t)
    simp only [hexDecode, e1, e2, ih2]
    rw [show 16 * (b / 16 % 16) + b % 16 = b from by omega]

theorem mem_hexEncode_not_space (bs : List Nat) (c : Char) (hc : c ∈ hexEncode bs) :
    isSpaceChar c = false := by
  unfold hexEncode at hc
  rw [List.mem_flatten] at hc
  obtain ⟨l, hl, hcl⟩ := hc
  rw [List.mem_map] at hl
  obtain ⟨b, _, rfl⟩ := hl
  have hhi : b / 16 % 16 < 16 := Nat.mod_lt _ (by omega)
  have hlo : b % 16 < 16 := Nat.mod_lt _ (by omega)
  rcases (by simpa using hcl : c = hexDigitChar (b / 16 % 16) ∨ c = hexDigitChar (b % 16)) with
    rfl | rfl
  · exact isSpaceChar_hexDigitChar _ hhi
  · exact isSpaceChar_hexDigitChar _ hlo

theorem trimChars_eq_self (s : List Char) (h : ∀ c ∈ s, isSpaceChar c = false) :
    trimChars s = s := by
  unfold trimChars
  have h1 : s.dropWhile (fun ch => isSpaceChar ch) = s := by
    rw [List.dropWhile_eq_self_iff]
    intro hl
    rw [h _ (s.get_mem _ _)]
    simp
  rw [h1]
  have h2 : s.reverse.dropWhile (fun ch => isSpaceChar ch) = s.reverse := by
    rw [List.dropWhile_eq_self_iff]
    intro hl
    rw [h _ (List.mem_reverse.mp (s.reverse.get_mem _ _))]
    simp
  rw [h2, List.reverse_reverse]

theorem hexEncode_ne_nil (bs : List Nat) (h : bs ≠ []) : hexEncode bs ≠ [] := by
  cases bs with
  | nil => contradiction
  | cons b t => simp [hexEncode]

/-- Strict hex parsing inverts hex printing on non-negative integers. -/
theorem hex_to_bigint_strict_bigint_to_hex {x : Int} (h0 : 0 ≤ x) :
    hex_to_bigint_strict (bigint_to_hex x) = Except.ok x := by
  unfold hex_to_bigint_strict bigint_to_hex
  have hbytes : ∀ b ∈ to_bytes_be x.natAbs, b < 256 := to_bytes_be_bytes_lt _
  rw [trimChars_eq_self _ (fun c hc => mem_hexEncode_not_space _ c hc)]
  have hne : hexEncode (to_bytes_be x.natAbs) ≠ [] :=
    hexEncode_ne_nil _ (to_bytes_be_ne_nil _)
  rw [if_neg (by simpa [List.isEmpty_iff] using hne)]
  rw [hexDecode_hexEncode _ hbytes]
  show (if (to_bytes_be x.natAbs).isEmpty = true then (Except.error "zero-length bytes" : Except String Int)
    else Except.ok ((natOfBytesBE (to_bytes_be x.natAbs) : Nat) : Int)) = Except.ok x
  rw [if_neg (by simpa [List.isEmpty_iff] using to_bytes_be_ne_nil x.natAbs)]
  rw [natOfBytesBE_to_bytes_be]
  congr 1
  omega

theorem dec_char_bounds : ∀ d : Nat, d < 10 →
    48 ≤ (Char.ofNat (48 + d)).toNat ∧ (Char.ofNat (48 + d)).toNat ≤ 57 := by
  decide

theorem dec_char_val : ∀ d : Nat, d < 10 → (Char.ofNat (48 + d)).toNat = 48 + d := by
  decide

theorem natDecCharsAux_digits :
    ∀ fuel n : Nat, ∀ c ∈ natDecCharsAux fuel n, 48 ≤ c.toNat ∧ c.toNat ≤ 57 := by
  intro fuel
  induction fuel with
  | zero => intro n c hc; simp [natDecCharsAux] at hc
  | succ f ih =>
    intro n c hc
    by_cases h0 : n = 0
    · subst h0; simp [natDecCharsAux] at hc
    · rw [natDecCharsAux, if_neg h0] at hc
      rcases List.mem_append.mp hc with hc | hc
      · exact ih _ c hc
      · have : c = Char.ofNat (48 + n % 10) := by simpa using hc
        subst this
        exact dec_char_bounds _ (Nat.mod_lt _ (by omega))

theorem natDecChars_digits (n : Nat) : ∀ c ∈ natDecChars n, 48 ≤ c.toNat ∧ c.toNat ≤ 57 := by
  unfold natDecChars
  by_cases h0 : n = 0
  · subst h0; intro c hc; simp at hc; subst hc; decide
  · rw [if_neg h0]; exact natDecCharsAux_digits n n

theorem natDecChars_ne_nil (n : Nat) : natDecChars n ≠ [] := by
  unfold natDecChars
  by_cases h0 : n = 0
  · subst h0; simp
  · rw [if_neg h0]
    obtain ⟨f, hf⟩ : ∃ f, n = f + 1 := ⟨n - 1, by omega⟩
    rw [hf]
    simp [natDecCharsAux, Nat.succ_ne_zero]

theorem natDecCharsAux_zero (fuel : Nat) : natDecCharsAux fuel 0 = [] := by
  cases fuel <;> simp [natDecCharsAux]

theorem dec_foldl_natDecCharsAux :
    ∀ fuel n : Nat, n ≤ fuel →
      (natDecCharsAux fuel n).foldl (fun acc ch => acc * 10 + (ch.toNat - 48)) 0 = n := by
  intro fuel
  induction fuel with
  | zero => intro n hn; interval_cases n; simp [natDecCharsAux]
  | succ f ih =>
    intro n hn
    by_cases h0 : n = 0
    · subst h0; simp [natDecCharsAux]
    · rw [natDecCharsAux, if_neg h0, List.foldl_append]
      by_cases hdiv : n / 10 = 0
      · rw [hdiv, natDecCharsAux_zero]
        simp only [List.foldl_nil, List.foldl_cons]
        rw [dec_char_val _ (Nat.mod_lt _ (by omega))]
        omega
      · have hle : n / 10 ≤ f := by omega
        rw [ih (n / 10) hle]
        simp only [List.foldl_cons, List.foldl_nil]
        rw [dec_char_val _ (Nat.mod_lt _ (by omega))]
        omega

theorem dec_foldl_natDecChars (n : Nat) :
    (natDecChars n).foldl (fun acc ch => acc * 10 + (ch.toNat - 48)) 0 = n := by
  unfold natDecChars
  by_cases h0 : n = 0
  · subst h0; simp
  · rw [if_neg h0]
    exact dec_foldl_natDecCharsAux n n le_rfl

theorem stripPlus_eq_self (s : List Char) (h : ∀ c ∈ s, 48 ≤ c.toNat) : stripPlus s = s := by
  cases s with
  | nil => rfl
  | cons c cs =>
    have hc := h c (by simp)
    have hcp : c ≠ '+' := by
      intro hcc
      subst hcc
      revert hc
      decide
    unfold stripPlus
    split
    · rename_i heq
      injection heq with h1 h2
      exact absurd h1 hcp
    · rfl

/-- Decimal parsing inverts decimal printing of a natural number. -/
theorem parseUsize_natDecChars (n : Nat) : parseUsize (natDecChars n) = some n := by
  unfold parseUsize
  rw [stripPlus_eq_self _ (fun c hc => (natDecChars_digits n c hc).1)]
  rw [if_neg (by simpa [List.isEmpty_iff] using natDecChars_ne_nil n)]
  rw [if_pos]
  · rw [dec_foldl_natDecChars]
  · rw [List.all_eq_true]
    intro c hc
    obtain ⟨h1, h2⟩ := natDecChars_digits n c hc
    simp only [decide_eq_true_eq]
    rw [Char.le_def, Char.le_def, UInt32.le_def, UInt32.le_def, BitVec.le_def, BitVec.le_def]
    simp only [Char.toNat] at h1 h2
    exact ⟨h1, h2⟩

theorem readScalar_cons_hex {x : Int} (h0 : 0 ≤ x) (rest : List (List Char)) :
    readScalar (bigint_to_hex x :: rest) = Except.ok (x, rest) := by
  unfold readScalar takeLine
  simp only [hex_to_bigint_strict_bigint_to_hex h0]

theorem readScalars_map_hex :
    ∀ (L : List Int), (∀ x ∈ L, 0 ≤ x) → ∀ rest,
      readScalars L.length (L.map bigint_to_hex ++ rest) = Except.ok (L, rest) := by
  intro L
  induction L with
  | nil => intro _ rest; rfl
  | cons x t ih =>
    intro h rest
    have hx : 0 ≤ x := h x (by simp)
    show readScalars (t.length + 1) (bigint_to_hex x :: (t.map bigint_to_hex ++ rest)) = _
    rw [readScalars]
    simp only [readScalar_cons_hex hx, ih (fun z hz => h z (by simp [hz])) rest]

theorem readScalars_ok_length :
    ∀ (k : Nat) (lines : List (List Char)) (xs : List Int) (rest : List (List Char)),
      readScalars k lines = Except.ok (xs, rest) → xs.length = k := by
  intro k
  induction k with
  | zero =>
    intro lines xs rest h
    unfold readScalars at h
    injection h with h
    injection h with h1 h2
    rw [← h1]
    rfl
  | succ j ih =>
    intro lines xs rest h
    unfold readScalars at h
    split at h
    · exact Except.noConfusion h
    · split at h
      · exact Except.noConfusion h
      · rename_i x r1 xs2 r2 heq
        injection h with h
        injection h with h3 h4
        rw [← h3]
        simp [ih _ _ _ heq]

/-- Claim C8 (confirmed).  Deserialization is strict: whenever `load_proof`
returns `Except.ok`, the decoded proof has a nonempty L vector, L and R of
equal length, and nonzero leading scalars A, S, T1, T2 — equivalently, an
input with a zero-length or mismatched vector or a zero leading scalar is
rejected with a typed `Except.error` before any cryptographic check runs, and
`load_proof` is a total function (it cannot panic).  Empty or invalid hex
likewise errors, by the `hex_to_bigint_strict` cases inside `readScalar`. -/
theorem load_proof_ok_wf (lines : List (List Char)) (p : Cuproof)
    (h : load_proof lines = Except.ok p) :
    0 < p.ipp_proof.L.length ∧ p.ipp_proof.L.length = p.ipp_proof.R.length ∧
    p.A ≠ 0 ∧ p.S ≠ 0 ∧ p.T1 ≠ 0 ∧ p.T2 ≠ 0 := by
  unfold load_proof at h
  split at h
  · exact Except.noConfusion h
  rename_i scalars s15 heq15
  split at h
  · exact Except.noConfusion h
  rename_i lenL s16 heqL
  split at h
  · exact Except.noConfusion h
  rename_i l_len heqpl
  split at h
  · exact Except.noConfusion h
  rename_i hl0
  split at h
  · exact Except.noConfusion h
  rename_i lL s17 heqLs
  split at h
  · exact Except.noConfusion h
  rename_i lenR s18 heqR
  split at h
  · exact Except.noConfusion h
  rename_i r_len heqpr
  split at h
  · exact Except.noConfusion h
  rename_i hr0
  split at h
  · exact Except.noConfusion h
  rename_i hrl
  split at h
  · exact Except.noConfusion h
  rename_i lR s19 heqRs
  split at h
  · exact Except.noConfusion h
  rename_i ia s20 heqa
  split at h
  · exact Except.noConfusion h
  rename_i ib s21 heqb
  split at h
  · rename_i pA pS pT1 pT2 ptau_x pmu pt_hat pC pC_v1 pC_v2 pt0c pt1c pt2c ptau1c ptau2c
    split at h
    · exact Except.noConfusion h
    rename_i hz
    obtain rfl : _ = p := Except.ok.inj h
    have hL : lL.length = l_len := readScalars_ok_length _ _ _ _ heqLs
    have hR : lR.length = r_len := readScalars_ok_length _ _ _ _ heqRs
    have hl0n : l_len ≠ 0 := by simpa using hl0
    have hrln : r_len = l_len := by simpa using hrl
    have hznz : ((¬pA = 0 ∧ ¬pS = 0) ∧ ¬pT1 = 0) ∧ ¬pT2 = 0 := by
      simpa [Bool.or_eq_true] using hz
    refine ⟨by simp only [hL]; omega, by simp only [hL, hR, hrln],
      hznz.1.1.1, hznz.1.1.2, hznz.1.2, hznz.2⟩
  · exact Except.noConfusion h

/-- Saving then loading reproduces any proof whose fields are non-negative,
whose leading scalars are nonzero, and whose L/R vectors are nonempty with
equal lengths. -/
theorem load_proof_save_proof (p : Cuproof)
    (hA : 0 ≤ p.A) (hS : 0 ≤ p.S) (hT1 : 0 ≤ p.T1) (hT2 : 0 ≤ p.T2)
    (htaux : 0 ≤ p.tau_x) (hmu : 0 ≤ p.mu) (hth : 0 ≤ p.t_hat)
    (hC : 0 ≤ p.C) (hCv1 : 0 ≤ p.C_v1) (hCv2 : 0 ≤ p.C_v2)
    (ht0 : 0 ≤ p.t0) (ht1 : 0 ≤ p.t1) (ht2 : 0 ≤ p.t2)
    (htau1 : 0 ≤ p.tau1) (htau2 : 0 ≤ p.tau2)
    (hLn : ∀ x ∈ p.ipp_proof.L, 0 ≤ x) (hRn : ∀ x ∈ p.ipp_proof.R, 0 ≤ x)
    (hia : 0 ≤ p.ipp_proof.a) (hib : 0 ≤ p.ipp_proof.b)
    (hAnz : p.A ≠ 0) (hSnz : p.S ≠ 0) (hT1nz : p.T1 ≠ 0) (hT2nz : p.T2 ≠ 0)
    (hlen : p.ipp_proof.L.length = p.ipp_proof.R.length)
    (hLpos : p.ipp_proof.L.length ≠ 0) :
    load_proof (save_proof p) = Except.ok p := by
  have hsave : save_proof p =
      ([p.A, p.S, p.T1, p.T2, p.tau_x, p.mu, p.t_hat, p.C, p.C_v1, p.C_v2,
        p.t0, p.t1, p.t2, p.tau1, p.tau2].map bigint_to_hex) ++
      (natDecChars p.ipp_proof.L.length ::
        (p.ipp_proof.L.map bigint_to_hex ++
          (natDecChars p.ipp_proof.R.length ::
            (p.ipp_proof.R.map bigint_to_hex ++
              [bigint_to_hex p.ipp_proof.a, bigint_to_hex p.ipp_proof.b])))) := by
    simp [save_proof]
  have hhdr : ∀ x ∈ [p.A, p.S, p.T1, p.T2, p.tau_x, p.mu, p.t_hat, p.C, p.C_v1, p.C_v2,
      p.t0, p.t1, p.t2, p.tau1, p.tau2], (0:Int) ≤ x := by
    intro z hz
    simp only [List.mem_cons, List.not_mem_nil, or_false] at hz
    rcases hz with rfl | rfl | rfl | rfl | rfl | rfl | rfl | rfl | rfl | rfl | rfl | rfl |
      rfl | rfl | rfl <;> assumption
  have h15 : readScalars 15 (save_proof p) =
      Except.ok ([p.A, p.S, p.T1, p.T2, p.tau_x, p.mu, p.t_hat, p.C, p.C_v1, p.C_v2,
        p.t0, p.t1, p.t2, p.tau1, p.tau2],
        natDecChars p.ipp_proof.L.length ::
          (p.ipp_proof.L.map bigint_to_hex ++
            (natDecChars p.ipp_proof.R.length ::
              (p.ipp_proof.R.map bigint_to_hex ++
                [bigint_to_hex p.ipp_proof.a, bigint_to_hex p.ipp_proof.b])))) := by
    rw [hsave]
    exact readScalars_map_hex _ hhdr _
  have hL0 : (p.ipp_proof.L.length == 0) = false := by simp [hLpos]
  have hR0 : (p.ipp_proof.R.length == 0) = false := by
    simp only [beq_eq_false_iff_ne, ne_eq]
    omega
  have hRL : (p.ipp_proof.R.length != p.ipp_proof.L.length) = false := by
    simp [hlen]
  unfold load_proof
  rw [h15]
  simp only [takeLine, parseUsize_natDecChars, hL0, Bool.false_eq_true, if_false,
    readScalars_map_hex p.ipp_proof.L hLn, readScalars_map_hex p.ipp_proof.R hRn,
    hR0, hRL, readScalar_cons_hex hia, readScalar_cons_hex hib]
  rw [if_neg (by simp [hAnz, hSnz, hT1nz, hT2nz])]

theorem load_params_save_params (g h n : Int) (hg : 0 ≤ g) (hh : 0 ≤ h) (hn : 0 ≤ n) :
    load_params (save_params g h n) = Except.ok (g, h, n) := by
  unfold load_params save_params
  rw [if_neg (by simp)]
  simp [hex_to_bigint_strict_bigint_to_hex, hg, hh, hn]

/-! ## Helper lemmas: non-negativity of everything the prover emits -/

theorem f3s_loopK_nonneg :
    ∀ (n : Int) (k fuel : Nat) (res : Int × Int × Int), f3s_loopK n k fuel = some res →
      0 ≤ res.1 ∧ 0 ≤ res.2.1 ∧ 0 ≤ res.2.2 := by
  intro n k fuel
  induction fuel generalizing k with
  | zero => intro res h; simp [f3s_loopK] at h
  | succ f ih =>
    intro res h
    rw [f3s_loopK] at h
    split at h
    · exact Option.noConfusion h
    split at h
    · obtain rfl : _ = res := Option.some.inj h
      refine ⟨by positivity, by positivity, by norm_num⟩
    split at h
    · exact Option.noConfusion h
    · exact ih _ _ h

theorem find_3_squares_nonneg (n : Int) : ∀ x ∈ find_3_squares n, 0 ≤ x := by
  unfold find_3_squares
  split
  · intro x hx
    simp only [List.mem_cons, List.not_mem_nil, or_false] at hx
    rcases hx with rfl | rfl | rfl <;> positivity
  · split
    · rename_i heq
      intro x hx
      have hn := f3s_loopK_nonneg _ _ _ _ heq
      simp only [List.mem_cons, List.not_mem_nil, or_false] at hx
      rcases hx with rfl | rfl | rfl
      · exact hn.1
      · exact hn.2.1
      · exact hn.2.2
    · have hs : 0 ≤ int_sqrt n := Int.ofNat_nonneg _
      split
      · intro x hx
        simp only [List.mem_cons, List.not_mem_nil, or_false] at hx
        rcases hx with rfl | rfl | rfl
        · positivity
        · positivity
        · norm_num
      · intro x hx
        simp only [List.mem_cons, List.not_mem_nil, or_false] at hx
        rcases hx with rfl | rfl | rfl <;> norm_num

theorem random_bigint_nonneg (rand : Nat → Nat) (i bits : Nat) :
    0 ≤ random_bigint rand i bits := Int.ofNat_nonneg _

theorem getD_nonneg (l : List Int) (i : Nat) (hl : ∀ x ∈ l, 0 ≤ x) : 0 ≤ l.getD i 0 := by
  by_cases hi : i < l.length
  · rw [List.getD_eq_getElem l 0 hi]
    exact hl _ (List.getElem_mem hi)
  · rw [List.getD_eq_default l 0 (by omega)]

theorem prv_d_nonneg (v a b : Int) (dim : Nat) : ∀ x ∈ prv_d v a b dim, 0 ≤ x := by
  intro x hx
  unfold prv_d at hx
  rw [List.mem_map] at hx
  obtain ⟨i, _, rfl⟩ := hx
  apply getD_nonneg
  intro z hz
  unfold prv_d_base at hz
  rcases List.mem_append.mp hz with hz | hz
  · exact find_3_squares_nonneg _ z hz
  · exact find_3_squares_nonneg _ z hz

theorem inner_product_nonneg (l1 l2 : List Int)
    (h1 : ∀ x ∈ l1, 0 ≤ x) (h2 : ∀ x ∈ l2, 0 ≤ x) : 0 ≤ inner_product l1 l2 := by
  unfold inner_product
  apply List.sum_nonneg
  intro z hz
  rw [List.mem_map] at hz
  obtain ⟨⟨x, y⟩, hmem, rfl⟩ := hz
  obtain ⟨hx, hy⟩ := List.of_mem_zip hmem
  exact mul_nonneg (h1 _ hx) (h2 _ hy)

theorem prv_y_nonneg (v r a b g h n : Int) (dim : Nat) (rand : Nat → Nat) (hn : 0 < n) :
    0 ≤ prv_y v r a b g h n dim rand :=
  (tmod_nonneg_lt (fiat_shamir_nonneg _) hn).1

theorem prv_z_nonneg (v r a b g h n : Int) (dim : Nat) (rand : Nat → Nat) (hn : 0 < n) :
    0 ≤ prv_z v r a b g h n dim rand :=
  (tmod_nonneg_lt (fiat_shamir_nonneg _) hn).1

theorem prv_x_nonneg (v r a b g h n : Int) (dim : Nat) (rand : Nat → Nat) (hn : 0 < n) :
    0 ≤ prv_x v r a b g h n dim rand :=
  (tmod_nonneg_lt (fiat_shamir_nonneg _) hn).1

theorem prv_l0_nonneg (v r a b g h n : Int) (dim : Nat) (rand : Nat → Nat) (hn : 0 < n) :
    ∀ x ∈ prv_l0 v r a b g h n dim rand, 0 ≤ x := by
  intro x hx
  unfold prv_l0 at hx
  rw [List.mem_map] at hx
  obtain ⟨di, hdi, rfl⟩ := hx
  have h1 := prv_d_nonneg v a b dim di hdi
  have h2 := prv_z_nonneg v r a b g h n dim rand hn
  have h3 := prv_y_nonneg v r a b g h n dim rand hn
  exact add_nonneg (mul_nonneg h2 h1) h3

theorem prv_r0_nonneg (v r a b g h n : Int) (dim : Nat) (rand : Nat → Nat) (hn : 0 < n) :
    ∀ x ∈ prv_r0 v r a b g h n dim rand, 0 ≤ x := by
  intro x hx
  unfold prv_r0 at hx
  rw [List.mem_map] at hx
  obtain ⟨di, hdi, rfl⟩ := hx
  have h1 := prv_d_nonneg v a b dim di hdi
  have h2 := prv_z_nonneg v r a b g h n dim rand hn
  have h3 := prv_y_nonneg v r a b g h n dim rand hn
  exact add_nonneg (mul_nonneg h2 h1) h3

theorem prv_sL_nonneg (dim : Nat) (rand : Nat → Nat) : ∀ x ∈ prv_sL dim rand, 0 ≤ x := by
  intro x hx
  unfold prv_sL at hx
  rw [List.mem_map] at hx
  obtain ⟨i, _, rfl⟩ := hx
  exact random_bigint_nonneg rand _ _

theorem prv_sR_nonneg (dim : Nat) (rand : Nat → Nat) : ∀ x ∈ prv_sR dim rand, 0 ≤ x := by
  intro x hx
  unfold prv_sR at hx
  rw [List.mem_map] at hx
  obtain ⟨i, _, rfl⟩ := hx
  exact random_bigint_nonneg rand _ _

theorem zip_sum_nonneg (l1 l2 : List Int)
    (h1 : ∀ x ∈ l1, 0 ≤ x) (h2 : ∀ x ∈ l2, 0 ≤ x) :
    0 ≤ ((l1.zip l2).map (fun p => p.1 * p.2)).sum :=
  inner_product_nonneg l1 l2 h1 h2

theorem prv_t0_nonneg (v r a b g h n : Int) (dim : Nat) (rand : Nat → Nat) (hn : 0 < n) :
    0 ≤ prv_t0 v r a b g h n dim rand :=
  inner_product_nonneg _ _ (prv_l0_nonneg v r a b g h n dim rand hn)
    (prv_r0_nonneg v r a b g h n dim rand hn)

theorem prv_t1_nonneg (v r a b g h n : Int) (dim : Nat) (rand : Nat → Nat) (hn : 0 < n) :
    0 ≤ prv_t1 v r a b g h n dim rand :=
  add_nonneg
    (zip_sum_nonneg _ _ (prv_l0_nonneg v r a b g h n dim rand hn) (prv_sR_nonneg dim rand))
    (zip_sum_nonneg _ _ (prv_r0_nonneg v r a b g h n dim rand hn) (prv_sL_nonneg dim rand))

theorem prv_t2_nonneg (v r a b g h n : Int) (dim : Nat) (rand : Nat → Nat) :
    0 ≤ prv_t2 v r a b g h n dim rand :=
  inner_product_nonneg _ _ (prv_sL_nonneg dim rand) (prv_sR_nonneg dim rand)

theorem prv_l_vec_nonneg (v r a b g h n : Int) (dim : Nat) (rand : Nat → Nat) (hn : 0 < n) :
    ∀ x ∈ prv_l_vec v r a b g h n dim rand, 0 ≤ x := by
  intro x hx
  unfold prv_l_vec at hx
  rw [List.mem_map] at hx
  obtain ⟨⟨p1, p2⟩, hmem, rfl⟩ := hx
  obtain ⟨hp1, hp2⟩ := List.of_mem_zip hmem
  have h1 := prv_l0_nonneg v r a b g h n dim rand hn _ hp1
  have h2 := prv_sL_nonneg dim rand _ hp2
  have h3 := prv_x_nonneg v r a b g h n dim rand hn
  exact add_nonneg h1 (mul_nonneg h2 h3)

theorem prv_r_vec_nonneg (v r a b g h n : Int) (dim : Nat) (rand : Nat → Nat) (hn : 0 < n) :
    ∀ x ∈ prv_r_vec v r a b g h n dim rand, 0 ≤ x := by
  intro x hx
  unfold prv_r_vec at hx
  rw [List.mem_map] at hx
  obtain ⟨⟨p1, p2⟩, hmem, rfl⟩ := hx
  obtain ⟨hp1, hp2⟩ := List.of_mem_zip hmem
  have h1 := prv_r0_nonneg v r a b g h n dim rand hn _ hp1
  have h2 := prv_sR_nonneg dim rand _ hp2
  have h3 := prv_x_nonneg v r a b g h n dim rand hn
  exact add_nonneg h1 (mul_nonneg h2 h3)

/-- Everything the IPP recursion returns is non-negative, given non-negative
inputs and a positive modulus. -/
theorem ipp_nonneg (g h n : Int) (rand : Nat → Nat) (hn : 0 < n) :
    ∀ (fuel idx : Nat) (l r2 : List Int), (∀ x ∈ l, 0 ≤ x) → (∀ x ∈ r2, 0 ≤ x) →
      0 ≤ (inner_product_argument_recursive g h n rand fuel idx l r2).1 ∧
      0 ≤ (inner_product_argument_recursive g h n rand fuel idx l r2).2.1 ∧
      (∀ x ∈ (inner_product_argument_recursive g h n rand fuel idx l r2).2.2.1, 0 ≤ x) ∧
      (∀ x ∈ (inner_product_argument_recursive g h n rand fuel idx l r2).2.2.2, 0 ≤ x) := by
  intro fuel
  induction fuel with
  | zero =>
    intro idx l r2 hl hr
    refine ⟨?_, ?_, by simp [inner_product_argument_recursive], by
      simp [inner_product_argument_recursive]⟩
    · rcases l with _ | ⟨x, t⟩
      · simp [inner_product_argument_recursive]
      · simpa [inner_product_argument_recursive] using hl x (by simp)
    · rcases r2 with _ | ⟨x, t⟩
      · simp [inner_product_argument_recursive]
      · simpa [inner_product_argument_recursive] using hr x (by simp)
  | succ f ih =>
    intro idx l r2 hl hr
    rw [inner_product_argument_recursive]
    split
    · refine ⟨?_, ?_, by simp, by simp⟩
      · rcases l with _ | ⟨x, t⟩
        · simp
        · simpa using hl x (by simp)
      · rcases r2 with _ | ⟨x, t⟩
        · simp
        · simpa using hr x (by simp)
    · have hy : 0 ≤ Int.tmod (fiat_shamir
        [pedersen_commit g h (inner_product (l.take (l.length / 2)) (r2.drop (l.length / 2)))
          (random_bigint rand idx 256) n,
         pedersen_commit g h (inner_product (l.drop (l.length / 2)) (r2.take (l.length / 2)))
          (random_bigint rand (idx + 1) 256) n]) n :=
        (tmod_nonneg_lt (fiat_shamir_nonneg _) hn).1
      have hlnew : ∀ x ∈ ((l.take (l.length / 2)).zip (l.drop (l.length / 2))).map
          (fun p => p.1 + Int.tmod (fiat_shamir
            [pedersen_commit g h (inner_product (l.take (l.length / 2)) (r2.drop (l.length / 2)))
              (random_bigint rand idx 256) n,
             pedersen_commit g h (inner_product (l.drop (l.length / 2)) (r2.take (l.length / 2)))
              (random_bigint rand (idx + 1) 256) n]) n * p.2), 0 ≤ x := by
        intro x hx
        rw [List.mem_map] at hx
        obtain ⟨⟨p1, p2⟩, hmem, rfl⟩ := hx
        obtain ⟨hp1, hp2⟩ := List.of_mem_zip hmem
        have h1 := hl _ (List.mem_of_mem_take hp1)
        have h2 := hl _ (List.mem_of_mem_drop hp2)
        exact add_nonneg h1 (mul_nonneg hy h2)
      have hrnew : ∀ x ∈ ((r2.take (l.length / 2)).zip (r2.drop (l.length / 2))).map
          (fun p => p.2 + Int.tmod (fiat_shamir
            [pedersen_commit g h (inner_product (l.take (l.length / 2)) (r2.drop (l.length / 2)))
              (random_bigint rand idx 256) n,
             pedersen_commit g h (inner_product (l.drop (l.length / 2)) (r2.take (l.length / 2)))
              (random_bigint rand (idx + 1) 256) n]) n * p.1), 0 ≤ x := by
        intro x hx
        rw [List.mem_map] at hx
        obtain ⟨⟨p1, p2⟩, hmem, rfl⟩ := hx
        obtain ⟨hp1, hp2⟩ := List.of_mem_zip hmem
        have h1 := hr _ (List.mem_of_mem_take hp1)
        have h2 := hr _ (List.mem_of_mem_drop hp2)
        exact add_nonneg h2 (mul_nonneg hy h1)
      obtain ⟨ih1, ih2, ih3, ih4⟩ := ih (idx + 2) _ _ hlnew hrnew
      refine ⟨ih1, ih2, ?_, ?_⟩
      · intro x hx
        rcases List.mem_append.mp hx with hx | hx
        · exact ih3 x hx
        · have : x = pedersen_commit g h
              (inner_product (l.take (l.length / 2)) (r2.drop (l.length / 2)))
              (random_bigint rand idx 256) n := by simpa using hx
          rw [this]
          exact pedersen_commit_nonneg _ _ _ _ hn
      · intro x hx
        rcases List.mem_append.mp hx with hx | hx
        · exact ih4 x hx
        · have : x = pedersen_commit g h
              (inner_product (l.drop (l.length / 2)) (r2.take (l.length / 2)))
              (random_bigint rand (idx + 1) 256) n := by simpa using hx
          rw [this]
          exact pedersen_commit_nonneg _ _ _ _ hn

set_option maxHeartbeats 1000000 in
/-- A freshly produced proof survives the save/load round trip bit-identically. -/
theorem prove_roundtrip (v r a b g h n : Int) (rand : Nat → Nat)
    (hsp : SetupParams g h n) :
    load_proof (save_proof (cuproof_prove v r a b g h n rand)) =
      Except.ok (cuproof_prove v r a b g h n rand) := by
  obtain ⟨hn1, hg2, hgn, hh2, hhn, hgh, hgcdg, hgcdh⟩ := hsp
  have hn0 : 0 < n := by omega
  have hx0 := prv_x_nonneg v r a b g h n 64 rand hn0
  have htau1 : (0:Int) ≤ prv_tau1 64 rand := random_bigint_nonneg rand _ _
  have htau2 : (0:Int) ≤ prv_tau2 64 rand := random_bigint_nonneg rand _ _
  have hipp := ipp_nonneg g h n rand hn0 (prv_l_vec v r a b g h n 64 rand).length
    (7 + 2 * 64) (prv_l_vec v r a b g h n 64 rand) (prv_r_vec v r a b g h n 64 rand)
    (prv_l_vec_nonneg v r a b g h n 64 rand hn0) (prv_r_vec_nonneg v r a b g h n 64 rand hn0)
  have hlens := prove_ipp_lengths v r a b g h n rand
  apply load_proof_save_proof
  · exact pedersen_commit_nonneg _ _ _ _ hn0
  · exact pedersen_commit_nonneg _ _ _ _ hn0
  · exact pedersen_commit_nonneg _ _ _ _ hn0
  · exact pedersen_commit_nonneg _ _ _ _ hn0
  · show 0 ≤ prv_tau_x v r a b g h n 64 rand
    unfold prv_tau_x
    exact add_nonneg (mul_nonneg (mul_nonneg htau2 hx0) hx0) (mul_nonneg htau1 hx0)
  · show 0 ≤ prv_mu v r a b g h n 64 rand
    unfold prv_mu
    exact add_nonneg (random_bigint_nonneg rand _ _)
      (mul_nonneg (random_bigint_nonneg rand _ _) hx0)
  · show 0 ≤ prv_t_hat v r a b g h n 64 rand
    unfold prv_t_hat
    exact add_nonneg (add_nonneg (prv_t0_nonneg v r a b g h n 64 rand hn0)
      (mul_nonneg (prv_t1_nonneg v r a b g h n 64 rand hn0) hx0))
      (mul_nonneg (mul_nonneg (prv_t2_nonneg v r a b g h n 64 rand) hx0) hx0)
  · exact pedersen_commit_nonneg _ _ _ _ hn0
  · exact pedersen_commit_nonneg _ _ _ _ hn0
  · exact pedersen_commit_nonneg _ _ _ _ hn0
  · exact prv_t0_nonneg v r a b g h n 64 rand hn0
  · exact prv_t1_nonneg v r a b g h n 64 rand hn0
  · exact prv_t2_nonneg v r a b g h n 64 rand
  · exact htau1
  · exact htau2
  · show ∀ x ∈ (prv_ipp v r a b g h n 64 rand).2.2.1, 0 ≤ x
    unfold prv_ipp
    exact hipp.2.2.1
  · show ∀ x ∈ (prv_ipp v r a b g h n 64 rand).2.2.2, 0 ≤ x
    unfold prv_ipp
    exact hipp.2.2.2
  · show 0 ≤ (prv_ipp v r a b g h n 64 rand).1
    unfold prv_ipp
    exact hipp.1
  · show 0 ≤ (prv_ipp v r a b g h n 64 rand).2.1
    unfold prv_ipp
    exact hipp.2.1
  · exact pedersen_commit_ne_zero _ _ _ _ hn1 hgcdg hgcdh
  · exact pedersen_commit_ne_zero _ _ _ _ hn1 hgcdg hgcdh
  · exact pedersen_commit_ne_zero _ _ _ _ hn1 hgcdg hgcdh
  · exact pedersen_commit_ne_zero _ _ _ _ hn1 hgcdg hgcdh
  · rw [hlens.1, hlens.2]
  · rw [hlens.1]
    omega

/-! ## Hash test vectors

Concrete checks that the embedded hash functions agree with the published
digests of the `sha3` (legacy Keccak-256) and `sha2` crates the source uses. -/

set_option maxRecDepth 10000 in
theorem keccak256_empty_vec :
    keccak256 [] = 0xc5d2460186f7233c927e7db2dcc703c0e500b653ca82273b7bfad8045d85a470 := by
  decide

set_option maxRecDepth 10000 in
theorem keccak256_abc_vec :
    keccak256 [0x61, 0x62, 0x63] =
      0x4e03657aea45a94fc7d47ba826c8d667c0d1e6e33a64a036ec44f58fa12d6c45 := by
  decide

set_option maxRecDepth 10000 in
theorem sha256_empty_vec :
    sha256 [] = 0xe3b0c44298fc1c149afbf4c8996fb92427ae41e4649b934ca495991b7852b855 := by
  decide

set_option maxRecDepth 10000 in
theorem sha256_abc_vec :
    sha256 [0x61, 0x62, 0x63] =
      0xba7816bf8f01cfea414140de5dae2223b00361a396177a9cb410ff61f20015ad := by
  decide

/-! ## The claims -/

set_option maxRecDepth 100000 in
/-- The handcrafted proof `p0` passes `cuproof_verify` under `(2, 3, 77)`. -/
theorem p0_accepted : cuproof_verify p0 2 3 77 = true := by decide

set_option maxRecDepth 100000 in
set_option maxHeartbeats 4000000 in
/-- The nondegeneracy side conditions of C1 hold at the witness instance `p1`:
the three recomputed challenges are nonzero mod 77 and the three value
commitments are pairwise distinct. -/
theorem c1_side_conditions :
    Int.tmod (fiat_shamir [p1.A, p1.S, p1.C, p1.C_v1, p1.C_v2]) 77 ≠ 0 ∧
    Int.tmod (fiat_shamir
      [Int.tmod (fiat_shamir [p1.A, p1.S, p1.C, p1.C_v1, p1.C_v2]) 77]) 77 ≠ 0 ∧
    Int.tmod (fiat_shamir [p1.T1, p1.T2]) 77 ≠ 0 ∧
    p1.C ≠ p1.C_v1 ∧ p1.C ≠ p1.C_v2 ∧ p1.C_v1 ≠ p1.C_v2 := by
  refine ⟨by decide, by decide, by decide, by decide, by decide, by decide⟩

/-- Witness for C1: at `(v, r, a, b, g, h, n) = (42, 1, 1, 100, 2, 3, 77)` with
the randomness supply `rand0`, prove followed by verify-with-range accepts. -/
theorem completeness_of_prove_witness :
    cuproof_verify_with_range p1 2 3 77 1 100 = true :=
  completeness_of_prove 42 1 1 100 2 3 77 rand0 p1 rfl
    (by decide) (by decide) (by decide) (by decide) (by decide)
    c1_side_conditions.1 c1_side_conditions.2.1 c1_side_conditions.2.2.1
    c1_side_conditions.2.2.2.1 c1_side_conditions.2.2.2.2.1 c1_side_conditions.2.2.2.2.2

/-- Counterexample to C1 as stated: with `a = b = v = 5` (so `a ≤ b` and
`a ≤ v ≤ b` hold) and valid setup parameters, verify-with-range rejects the
freshly produced proof, because `verify_with_range` returns false whenever
`a = b`. -/
theorem completeness_fails_at_equal_bounds :
    SetupParams 2 3 77 ∧ (5 : Int) ≤ 5 ∧
    cuproof_verify_with_range (cuproof_prove 5 1 5 5 2 3 77 rand0) 2 3 77 5 5 = false :=
  ⟨by decide, le_refl 5, withRange_false_of_le _ 2 3 77 5 5 (le_refl 5)⟩

set_option maxRecDepth 100000 in
/-- Witness for C2: the conclusion of the tamper analysis at the accepted
proof `p0` under `(2, 3, 77)`. -/
theorem tamper_detection_witness :
    cuproof_verify { p0 with T1 := p0.T1 + 1 } 2 3 77 = false ∧
    cuproof_verify { p0 with T2 := p0.T2 + 1 } 2 3 77 = false ∧
    cuproof_verify { p0 with t0 := p0.t0 + 1 } 2 3 77 = false ∧
    cuproof_verify { p0 with t1 := p0.t1 + 1 } 2 3 77 = false ∧
    cuproof_verify { p0 with t2 := p0.t2 + 1 } 2 3 77 = false ∧
    cuproof_verify { p0 with tau1 := p0.tau1 + 1 } 2 3 77 = false ∧
    cuproof_verify { p0 with tau2 := p0.tau2 + 1 } 2 3 77 = false ∧
    cuproof_verify { p0 with t_hat := p0.t_hat + 1 } 2 3 77 = false ∧
    cuproof_verify { p0 with mu := p0.mu + 1 } 2 3 77 = true ∧
    cuproof_verify { p0 with tau_x := p0.tau_x + 1 } 2 3 77 = true :=
  tamper_detection p0 2 3 77 (by decide) p0_accepted

set_option maxRecDepth 100000 in
set_option maxHeartbeats 4000000 in
/-- Counterexample to C2 as stated: `p0` is accepted, and so are the proofs
obtained from it by adding 1 to the single scalar field `mu` or to the single
scalar field `A` — mutating a single scalar does not always make
`cuproof_verify` return false. -/
theorem tamper_mu_accepted :
    cuproof_verify p0 2 3 77 = true ∧
    cuproof_verify { p0 with mu := p0.mu + 1 } 2 3 77 = true ∧
    cuproof_verify { p0 with A := p0.A + 1 } 2 3 77 = true := by
  refine ⟨by decide, by decide, by decide⟩

/-- Claim C3 (corrected).  The Pedersen commitment is homomorphic for
non-negative messages and blindings over a positive modulus:
`commit(m1,r1) * commit(m2,r2) % n = commit(m1+m2, r1+r2)`.  For negative
inputs the claim is false, because `mod_exp` exponentiates the absolute
values (see the counterexample). -/
theorem pedersen_commit_hom (g h m1 r1 m2 r2 n : Int) (hn : 0 < n)
    (hm1 : 0 ≤ m1) (hr1 : 0 ≤ r1) (hm2 : 0 ≤ m2) (hr2 : 0 ≤ r2) :
    pedersen_commit g h m1 r1 n * pedersen_commit g h m2 r2 n % n =
      pedersen_commit g h (m1 + m2) (r1 + r2) n := by
  rw [pedersen_commit_eq_nat g h m1 r1 hn, pedersen_commit_eq_nat g h m2 r2 hn,
    pedersen_commit_eq_nat g h (m1 + m2) (r1 + r2) hn]
  have hmn : (m1 + m2).natAbs = m1.natAbs + m2.natAbs := by omega
  have hrn : (r1 + r2).natAbs = r1.natAbs + r2.natAbs := by omega
  rw [hmn, hrn]
  have hncast : n = ((n.toNat : Nat) : Int) := by omega
  rw [← Nat.cast_mul]
  conv_lhs => rw [hncast]
  rw [← Int.ofNat_emod]
  rw [Nat.cast_inj]
  simp only [Int.toNat_natCast]
  have e1 : g.natAbs ^ m1.natAbs % n.toNat * (h.natAbs ^ r1.natAbs % n.toNat) % n.toNat =
      g.natAbs ^ m1.natAbs * h.natAbs ^ r1.natAbs % n.toNat := (Nat.mul_mod _ _ _).symm
  have e2 : g.natAbs ^ m2.natAbs % n.toNat * (h.natAbs ^ r2.natAbs % n.toNat) % n.toNat =
      g.natAbs ^ m2.natAbs * h.natAbs ^ r2.natAbs % n.toNat := (Nat.mul_mod _ _ _).symm
  have e3 : g.natAbs ^ (m1.natAbs + m2.natAbs) % n.toNat *
        (h.natAbs ^ (r1.natAbs + r2.natAbs) % n.toNat) % n.toNat =
      g.natAbs ^ (m1.natAbs + m2.natAbs) * h.natAbs ^ (r1.natAbs + r2.natAbs) % n.toNat :=
    (Nat.mul_mod _ _ _).symm
  rw [e1, e2, e3, ← Nat.mul_mod]
  congr 1
  rw [pow_add, pow_add]
  ring

/-- Witness for C3 at `(g, h, n) = (2, 3, 77)` with messages 5, 11 and
blindings 7, 13. -/
theorem pedersen_commit_hom_witness :
    pedersen_commit 2 3 5 7 77 * pedersen_commit 2 3 11 13 77 % 77 =
      pedersen_commit 2 3 (5 + 11) (7 + 13) 77 :=
  pedersen_commit_hom 2 3 5 7 11 13 77 (by decide) (by decide) (by decide)
    (by decide) (by decide)

/-- Counterexample to C3 as stated (all integer messages): with `m2 = -1` the
product of commitments is not the commitment of the sum, because `mod_exp`
raises to the absolute value of the exponent. -/
theorem pedersen_commit_hom_fails_on_negative :
    pedersen_commit 2 3 1 0 77 * pedersen_commit 2 3 (-1) 0 77 % 77 ≠
      pedersen_commit 2 3 (1 + -1) (0 + 0) 77 := by decide

/-- Claim C4 (corrected).  The spec says a negative exponent is handled by
negating the base: `mod_exp(g, -m, n) = (-g)^m mod n`.  The code instead takes
the absolute value of base and exponent: `mod_exp(g, -m, n) = |g|^m mod n`,
which differs from the stated convention whenever the negated base to an odd
power is negative (see the counterexample against `mod_exp_spec_neg`). -/
theorem mod_exp_neg_abs_base (g : Int) (m : Nat) (n : Int) :
    mod_exp g (-(m : Int)) n = ((g.natAbs ^ m : Nat) : Int) % n := by
  rw [mod_exp_eq, Int.natAbs_neg, Int.natAbs_ofNat]

/-- Counterexample to C4 as stated: at `g = 2, m = 1, n = 77` the code returns
`2 = |2|^1 mod 77`, while the convention the spec states returns
`(-2)^1 % 77 = -2` (rust `%`, the sign of the dividend): the two disagree. -/
theorem mod_exp_not_spec_neg :
    mod_exp 2 (-1) 77 = 2 ∧ mod_exp_spec_neg 2 1 77 = -2 ∧
    mod_exp 2 (-1) 77 ≠ mod_exp_spec_neg 2 1 77 := by decide

/-- Claim C5 (confirmed).  Verifier step 4 is tautological: deleting the
step-4 comparison does not change the verdict of `cuproof_verify` on any
proof (first conjunct), and the verifier never reads the final IPP scalars
`a`, `b`, so step 4 does not bind `t_hat` to the inner product the IPP
outputs: replacing those scalars by arbitrary values never changes the
verdict (second conjunct). -/
theorem step4_tautological :
    (∀ (proof : Cuproof) (g h n : Int),
      cuproof_verify_no_step4 proof g h n = cuproof_verify proof g h n) ∧
    (∀ (proof : Cuproof) (g h n af bf : Int),
      cuproof_verify
        { proof with ipp_proof := { proof.ipp_proof with a := af, b := bf } } g h n =
      cuproof_verify proof g h n) := by
  refine ⟨step4_redundant, fun proof g h n af bf => ?_⟩
  rw [Bool.eq_iff_iff, cuproof_verify_eq_true_iff, cuproof_verify_eq_true_iff]

/-- Claim C6 (corrected).  Both Fiat-Shamir variants are deterministic on
identical ordered input.  Order sensitivity holds for the Keccak variant at
the level of the hashed byte stream: for lists of length at least 2 with
pairwise-distinct in-range entries, reversal changes the byte stream fed to
Keccak-256 (conjunct 3; that the 256-bit digests themselves never collide is
a collision-resistance assumption, not a provable fact, and it fails for the
SHA variant — see the counterexample).  Conjuncts 4 and 5 are concrete
order-sensitivity instances of the two hash-level functions. -/
theorem fiat_shamir_det_order :
    (∀ X : List Int, fiat_shamir X = fiat_shamir X) ∧
    (∀ X : List Int, fiat_shamir_sha X = fiat_shamir_sha X) ∧
    (∀ X : List Int, 2 ≤ X.length → X.Pairwise (fun x y => x ≠ y) →
      (∀ x ∈ X, 0 ≤ x ∧ x.natAbs < 2 ^ 256) →
      fiat_shamir_input X.reverse ≠ fiat_shamir_input X) ∧
    fiat_shamir [0, 1] ≠ fiat_shamir [1, 0] ∧
    fiat_shamir_sha [2, 3] ≠ fiat_shamir_sha [3, 2] := by
  refine ⟨fun X => rfl, fun X => rfl, ?_, by decide, by decide⟩
  intro X hlen hnd hrange heq
  have hX := fiat_shamir_input_inj X.reverse X
    (fun x hx => hrange x (List.mem_reverse.mp hx)) hrange heq
  exact reverse_ne_of_nodup X hlen hnd hX

/-- Counterexample to C6 as stated: the SHA-256 variant hashes the decimal
strings concatenated with no separator, so the distinct ordered lists
`[11, 1]` and its reverse `[1, 11]` both hash the bytes of the string 111 and
collide, refuting FiatShamir(X) differs from FiatShamir(reverse X). -/
theorem fiat_shamir_sha_order_collision :
    ([11, 1] : List Int).Pairwise (fun x y => x ≠ y) ∧
    2 ≤ ([11, 1] : List Int).length ∧
    fiat_shamir_sha (List.reverse [11, 1]) = fiat_shamir_sha [11, 1] := by
  refine ⟨by decide, by decide, by decide⟩

/-- Claim C7 (corrected).  `cuproof_verify_with_range` rejects degenerate
bounds — it returns false when `a > b` and when `a = b` — but NOT regardless
of the contents of the proof: the call runs `cuproof_verify` before the bound
guards, and that computes `fiat_shamir` over the proof fields first, which
panics (rather than returning false) whenever a hashed field has magnitude
`2^256` or more — a proof directly loadable from a crafted file.  The
rejection therefore holds on the panic-free domain, made explicit by the
`cuproof_verify_panics` hypothesis (with `n ≠ 0`, since `% n` aborts at 0);
the counterexample exhibits the reachable panic under degenerate bounds. -/
theorem degenerate_bounds_rejected :
    (∀ (p : Cuproof) (g h n a b : Int), n ≠ 0 →
      cuproof_verify_panics p n = false → b < a →
      cuproof_verify_with_range p g h n a b = false) ∧
    (∀ (p : Cuproof) (g h n a : Int), n ≠ 0 →
      cuproof_verify_panics p n = false →
      cuproof_verify_with_range p g h n a a = false) :=
  ⟨fun p g h n a b _ _ hab => withRange_false_of_le p g h n a b (le_of_lt hab),
   fun p g h n a _ _ => withRange_false_of_le p g h n a a le_rfl⟩

set_option maxRecDepth 100000 in
/-- Witness for C7: at the accepted-shape proof `p0` under `(2, 3, 77)`, no
hash input overflows, and both degenerate-bound cases return false. -/
theorem degenerate_bounds_rejected_witness :
    cuproof_verify_with_range p0 2 3 77 5 3 = false ∧
    cuproof_verify_with_range p0 2 3 77 4 4 = false :=
  ⟨degenerate_bounds_rejected.1 p0 2 3 77 5 3 (by decide) (by decide) (by decide),
   degenerate_bounds_rejected.2 p0 2 3 77 4 (by decide) (by decide)⟩

set_option maxRecDepth 100000 in
/-- Counterexample to C7 as stated (rejection regardless of the contents of
the proof): with `pbig.A = 2^256` and degenerate bounds `a = 5 > 3 = b` (or
`a = b = 4`), the program panics in the first `fiat_shamir` buffer fill of
`cuproof_verify` — evaluated before the bound guards — instead of returning
false. -/
theorem degenerate_bounds_panic :
    (3 : Int) < 5 ∧
    cuproof_verify_with_range_panics pbig 2 3 77 5 3 = true ∧
    cuproof_verify_with_range_panics pbig 2 3 77 4 4 = true := by
  refine ⟨by decide, by decide, by decide⟩

set_option maxRecDepth 100000 in
/-- Witness for C8: the serialized form of `p0` loads back successfully, and
the conclusion of the strictness theorem holds for it. -/
theorem load_proof_ok_wf_witness :
    0 < p0.ipp_proof.L.length ∧ p0.ipp_proof.L.length = p0.ipp_proof.R.length ∧
    p0.A ≠ 0 ∧ p0.S ≠ 0 ∧ p0.T1 ≠ 0 ∧ p0.T2 ≠ 0 :=
  load_proof_ok_wf (save_proof p0) p0 rfl

/-- Claim C9 (confirmed).  Codec round trip: `save_params` followed by
`load_params` returns exactly the non-negative parameter triple it was given
(the triples setup produces are non-negative), and `save_proof` followed by
`load_proof` returns every freshly produced proof bit-identically, L and R
sequences and their order included (`Except.ok` carries the full record, so
equality of records is field-wise identity). -/
theorem codec_round_trip :
    (∀ g h n : Int, 0 ≤ g → 0 ≤ h → 0 ≤ n →
      load_params (save_params g h n) = Except.ok (g, h, n)) ∧
    (∀ (v r a b g h n : Int) (rand : Nat → Nat), SetupParams g h n →
      load_proof (save_proof (cuproof_prove v r a b g h n rand)) =
        Except.ok (cuproof_prove v r a b g h n rand)) :=
  ⟨load_params_save_params, prove_roundtrip⟩

set_option maxRecDepth 100000 in
/-- Claim C10 (code bug).  `find_4_squares` is not a sound total
decomposition: at the non-negative input 128 the unsigned subtraction
`n - a*a - b*b - c*c` wraps below zero at iterations before the
decomposition `(8, 0, 0, 8)` is returned (the run flag below records that an
underflow happened at or before the returning iteration), and any input of
64 bits or more is first truncated to `u64`, so at `2^64` the function
returns `[0, 0, 0, 0]`, whose squares sum to `0`, not `2^64`. -/
theorem find_4_squares_diverges :
    find_4_squares_run 128 = (some (8, 0, 0, 8), true) ∧
    find_4_squares (2 ^ 64) = [0, 0, 0, 0] ∧ (0 : Int) ≠ 2 ^ 64 := by
  refine ⟨by decide, by decide, by decide⟩
